import Mathlib

/-!
# SuperSimpleStocks: trade ledger, stock and exchange

A shallow embedding of `src/src/Trade.hpp`, `src/src/Stock.hpp` and
`src/src/GBCE.hpp`.

Modelling conventions.

* `double` is an arbitrary linearly ordered field `D` (for instance the rationals
  or the reals): arithmetic is exact, there is no rounding, no NaN and no
  infinity.  Where rounding decides a property, `stockPrice` is embedded a second
  time over `Binary64`, with every operation rounded to nearest.
  `unsigned long` and `size_t` are `Nat`, converted to `D` by the cast.
  The quotients that `Stock` returns to its caller are the one place where a zero
  divisor is allowed by the source; they are values of `Quotient754`, and the sign
  bit of a zero divisor, which `D` does not carry, is an explicit argument there.
* `std::pow` is library code outside the repository; it is a parameter `pow`.
* `std::chrono::system_clock::now()` is an explicit argument.  Instants and
  durations are integers counted in one common unit (milliseconds): the
  comparison `(right_now - element.first) >= border` of the source converts both
  sides to their common duration type without loss.
* A `std::multimap` / `std::map` is the list of its entries in iteration order.
* A thrown exception is `Except.error`; undefined behaviour is `none`.
-/

set_option linter.unusedSectionVars false

namespace jpmorgan

/-! ## Trade.hpp -/

/-- The constant `_15min` in milliseconds. -/
def _15min : Int := 15 * 60 * 1000

/-- The constant `_5sec` in milliseconds. -/
def _5sec : Int := 5 * 1000

/-- The constant `_500msec` in milliseconds. -/
def _500msec : Int := 5 * 100

/-- The struct `trade_data`. -/
structure trade_data (D : Type) where
  quantity : Nat
  indicator : Bool
  price : D
deriving DecidableEq

/-- A time point of `system_clock`. -/
abbrev timestamp := Int

/-- An entry of the multimap: `std::pair<timestamp, trade_data>`. -/
abbrev trade_pair (D : Type) := timestamp × trade_data D

/-- The class `Trade`: the entries of the `std::multimap<timestamp, trade_data>` it derives
from, in iteration order (ascending timestamp), and the private member `border`. -/
structure Trade (D : Type) where
  records : List (trade_pair D) := []
  border : Int := _15min
deriving DecidableEq

namespace Trade

variable {D : Type}

/-- The call `setBorder`. -/
def setBorder (t : Trade D) (new_border : Int) : Trade D :=
  { t with border := new_border }

/-- Insertion into a multimap with the hint `end()`: the new entry goes as close to the end
as the ordering allows, that is after every entry whose key is not greater than its own. -/
def emplace_hint_end (e : trade_pair D) : List (trade_pair D) → List (trade_pair D)
  | [] => [e]
  | x :: xs => if e.1 < x.1 then e :: x :: xs else x :: emplace_hint_end e xs

/-- The call `addTrade`, with the clock reading `right_now` taken at the call. -/
def addTrade (t : Trade D) (right_now : timestamp) (quantity : Nat) (indicator : Bool)
    (price : D) : Trade D :=
  { t with records := emplace_hint_end (right_now, ⟨quantity, indicator, price⟩) t.records }

/-- The inherited `clear()`. -/
def clear (t : Trade D) : Trade D :=
  { t with records := [] }

/-- The inherited `size()`. -/
def size (t : Trade D) : Nat :=
  t.records.length

variable [LinearOrderedField D]

/-- One round of the loop of `stockPrice`: `acc.1` is `s_trade_price_x_quantity` and `acc.2`
is `s_quantity`. -/
def stockPriceStep (border : Int) (right_now : timestamp) (acc : D × D)
    (element : trade_pair D) : D × D :=
  if right_now - element.1 ≥ border then acc
  else (acc.1 + element.2.price * (element.2.quantity : D), acc.2 + (element.2.quantity : D))

/-- The call `stockPrice`, with the clock reading `right_now`. -/
def stockPrice (t : Trade D) (right_now : timestamp) : D :=
  if t.records.isEmpty then 0
  else
    let acc := t.records.foldl (stockPriceStep t.border right_now) (0, 0)
    if 0 ≥ acc.2 then 0
    else if 0 ≥ acc.1 then 0
    else acc.1 / acc.2

/-- The loop of `clearOldTrades` over the entries the iterator has still to visit.  At an entry
that is too old the body calls `erase(element.first)`, which removes every entry with that
key, the one the loop's own iterator points at included.  That iterator is thereby
invalidated, and the loop goes on to increment it: the behaviour is undefined from the first
such entry on (`none`).  When no entry is too old the loop only reads and ends (`some ()`). -/
def clearOldTradesLoop (border : Int) (right_now : timestamp) : List (trade_pair D) → Option Unit
  | [] => some ()
  | element :: rest =>
    if right_now - element.1 ≥ border then none
    else clearOldTradesLoop border right_now rest

/-- The call `clearOldTrades`, with the clock reading `right_now`: the ledger it leaves, or
`none` where its behaviour is undefined. -/
def clearOldTrades (t : Trade D) (right_now : timestamp) : Option (Trade D) :=
  if t.records.isEmpty then some t
  else (clearOldTradesLoop t.border right_now t.records).map (fun _ => t)

/-- The call `stockPriceAndClear`: the value returned and the ledger left.  The clock is read
twice, by `stockPrice` and then by `clearOldTrades`. -/
def stockPriceAndClear (t : Trade D) (now_price now_clear : timestamp) : Option (D × Trade D) :=
  let result := stockPrice t now_price
  (clearOldTrades t now_clear).map (fun t' => (result, t'))

/-! ### The windowed price as the specification words it -/

/-- The records whose age `now - timestamp` is strictly less than the window. -/
def inWindow (t : Trade D) (now : timestamp) : List (trade_pair D) :=
  t.records.filter (fun e => decide (now - e.1 < t.border))

/-- The summed quantity `Q` over the records in the window. -/
def windowQuantity (t : Trade D) (now : timestamp) : D :=
  ((inWindow t now).map (fun e => (e.2.quantity : D))).sum

/-- The summed notional `N` over the records in the window. -/
def windowNotional (t : Trade D) (now : timestamp) : D :=
  ((inWindow t now).map (fun e => e.2.price * (e.2.quantity : D))).sum

/-- The reference definition of the windowed price: `0` on an empty ledger, `0` if `Q ≤ 0`,
`0` if `N ≤ 0`, and `N / Q` otherwise. -/
def windowedPriceSpec (t : Trade D) (now : timestamp) : D :=
  if t.records = [] then 0
  else if windowQuantity t now ≤ 0 then 0
  else if windowNotional t now ≤ 0 then 0
  else windowNotional t now / windowQuantity t now

end Trade

/-! ## Trade.hpp in binary64 arithmetic

The call `stockPrice` once more, the doubles now being IEEE-754 binary64 values and every
operation rounding to nearest, ties to even.  Only finite values of the normal range are
represented: no infinity, no NaN, no subnormal result. -/

/-- A finite double: the value `mantissa * 2 ^ exponent`.  A value that `round` yields is
`⟨0, 0⟩` or has `2 ^ 52 ≤ |mantissa| < 2 ^ 53`. -/
structure Binary64 where
  mantissa : Int
  exponent : Int
deriving DecidableEq

namespace Binary64

/-- The power `2 ^ k` for `k ≥ 0`, and `1` for `k < 0`. -/
def pow2 (k : Int) : Nat := 2 ^ k.toNat

/-- The comparison `a <= b` of two doubles. -/
def le (a b : Binary64) : Bool :=
  let e := min a.exponent b.exponent
  decide (a.mantissa * pow2 (a.exponent - e) ≤ b.mantissa * pow2 (b.exponent - e))

end Binary64

/-- The exception classes of `Exceptions.hpp`. -/
inductive Exception where
  | unexpected_negative_value
  | unexpected_zero_denominator
  | unexpected_empty_string
  | stock_non_found
deriving DecidableEq, Repr

/-- The object a member call leaves behind: the one it built when it returns, the one it was
called on when it throws.  In `Stock.hpp` and `GBCE.hpp` every `throw` comes before the first
write of its call. -/
def leaves {σ : Type} (before : σ) : Except Exception σ → σ
  | .ok built => built
  | .error _ => before

/-! ## Stock.hpp -/

/-- The result of dividing one double by another: a finite value, an infinity with its sign,
or NaN. -/
inductive Quotient754 (D : Type) where
  | finite (value : D)
  | infinity (negative : Bool)
  | nan
deriving DecidableEq

/-- The IEEE-754 quotient `a / b` of two finite doubles.  A double zero carries a sign bit, which
the field `D` does not: `negative_zero` is the sign bit of the divisor where the divisor is zero
(`false` for `+0.0`, `true` for `-0.0`), and is not read otherwise.  A non-zero `a` over a zero
is the infinity whose sign is the sign of `a` times the sign of the zero; zero over zero is
NaN. -/
def divide {D : Type} [LinearOrderedField D] (a b : D) (negative_zero : Bool) : Quotient754 D :=
  if b = 0 then (if a = 0 then .nan else .infinity (xor (decide (a < 0)) negative_zero))
  else .finite (a / b)

/-- The class `Stock`, with its private members. -/
structure Stock (D : Type) where
  symbol : String := ""
  trade : Trade D := {}
  price : D
  last_dividend : D
  fixed_dividend : D
  par_value : D
  previous_exponent : D
  previous_price : D
  price_pow : D
deriving DecidableEq

namespace Stock

variable {D : Type} [LinearOrderedField D]

/-- The constructor `Stock(symbol, last_dividend, par_value, fixed_dividend)`: the members are
initialised first, then the symbol and the three numbers are checked. -/
def ctor (s : String) (l_d p_v f_d : D) : Except Exception (Stock D) :=
  if s.isEmpty then .error .unexpected_empty_string
  else if 0 > l_d ∨ 0 > p_v ∨ 0 > f_d then .error .unexpected_negative_value
  else .ok { symbol := s, trade := {}, price := 0, last_dividend := l_d, fixed_dividend := f_d,
             par_value := p_v, previous_exponent := 0, previous_price := 0, price_pow := 0 }

/-- The call `getSymbol`. -/
def getSymbol (s : Stock D) : String := s.symbol

/-- The call `isCommon`. -/
def isCommon (s : Stock D) : Bool := decide (0 ≥ s.fixed_dividend)

/-- The call `isPreferred`. -/
def isPreferred (s : Stock D) : Bool := decide (0 < s.fixed_dividend)

/-- The call `setBorder`. -/
def setBorder (s : Stock D) (new_border : Int) : Stock D :=
  { s with trade := s.trade.setBorder new_border }

/-- The call `getTradeSize`. -/
def getTradeSize (s : Stock D) : Nat := s.trade.size

/-- The call `setPrice`. -/
def setPrice (s : Stock D) (p : D) : Except Exception (Stock D) :=
  if 0 > p then .error .unexpected_negative_value else .ok { s with price := p }

/-- The call `getPrice`. -/
def getPrice (s : Stock D) : D := s.price

/-- The call `setLastDividend`. -/
def setLastDividend (s : Stock D) (d : D) : Except Exception (Stock D) :=
  if 0 > d then .error .unexpected_negative_value else .ok { s with last_dividend := d }

/-- The call `setFixedDividend`. -/
def setFixedDividend (s : Stock D) (d : D) : Except Exception (Stock D) :=
  if 0 > d then .error .unexpected_negative_value else .ok { s with fixed_dividend := d }

/-- The call `setFixedDividendPercentage`. -/
def setFixedDividendPercentage (s : Stock D) (d : D) : Except Exception (Stock D) :=
  if 0 > d then .error .unexpected_negative_value else .ok { s with fixed_dividend := d / 100 }

/-- The call `hasChanged`: the value returned and the stock it leaves. -/
def hasChanged (pow : D → D → D) (s : Stock D) (exponent : D) : Bool × Stock D :=
  let changed := decide (exponent ≠ s.previous_exponent) || decide (s.price ≠ s.previous_price)
  if changed then
    (changed, { s with previous_price := s.price, previous_exponent := exponent,
                       price_pow := pow s.price exponent })
  else (changed, s)

/-- The call `getPricePow`. -/
def getPricePow (s : Stock D) : D := s.price_pow

/-- The call `addTrade(quantity, indicator, p)`: the argument `p` is checked, the member
`price` is what the ledger records. -/
def addTrade (s : Stock D) (right_now : timestamp) (quantity : Nat) (indicator : Bool) (p : D) :
    Except Exception (Stock D) :=
  if (0 : D) > (quantity : D) then .error .unexpected_negative_value
  else if 0 > p then .error .unexpected_negative_value
  else .ok { s with trade := s.trade.addTrade right_now quantity indicator s.price }

/-- The call `addTrade(quantity, indicator)`. -/
def addTrade2 (s : Stock D) (right_now : timestamp) (quantity : Nat) (indicator : Bool) :
    Except Exception (Stock D) :=
  if (0 : D) > (quantity : D) then .error .unexpected_negative_value
  else if 0 > s.price then .error .unexpected_negative_value
  else s.addTrade right_now quantity indicator s.price

/-- The call `dividendYield(ticker_price)`.  The guard `0.0 > ticker_price` lets both zeros
through; `negative_zero` is the sign bit of `ticker_price` where it is zero. -/
def dividendYield (s : Stock D) (ticker_price : D) (negative_zero : Bool) :
    Except Exception (Quotient754 D) :=
  if 0 > ticker_price then .error .unexpected_zero_denominator
  else if s.isCommon then .ok (divide s.last_dividend ticker_price negative_zero)
  else .ok (divide (s.fixed_dividend * s.par_value) ticker_price negative_zero)

/-- The call `dividendYield()`: the member `price` is the ticker price, and `negative_zero` the
sign bit of that member where it is zero. -/
def dividendYield0 (s : Stock D) (negative_zero : Bool) : Except Exception (Quotient754 D) :=
  s.dividendYield s.price negative_zero

/-- The call `p_e_ratio(ticker_price)`.  The guard `0.0 > last_dividend` lets both zeros
through; `negative_zero` is the sign bit of the member `last_dividend` where it is zero. -/
def p_e_ratio (s : Stock D) (ticker_price : D) (negative_zero : Bool) :
    Except Exception (Quotient754 D) :=
  if 0 > s.last_dividend then .error .unexpected_zero_denominator
  else .ok (divide ticker_price s.last_dividend negative_zero)

/-- The call `p_e_ratio()`: the member `price` is the ticker price. -/
def p_e_ratio0 (s : Stock D) (negative_zero : Bool) : Except Exception (Quotient754 D) :=
  s.p_e_ratio s.price negative_zero

/-- The call `stockPrice`. -/
def stockPrice (s : Stock D) (right_now : timestamp) : D := s.trade.stockPrice right_now

/-- The call `clearOldTrades`. -/
def clearOldTrades (s : Stock D) (right_now : timestamp) : Option (Stock D) :=
  (s.trade.clearOldTrades right_now).map (fun t => { s with trade := t })

/-- The call `stockPriceAndClear`. -/
def stockPriceAndClear (s : Stock D) (now_price now_clear : timestamp) :
    Option (D × Stock D) :=
  (s.trade.stockPriceAndClear now_price now_clear).map
    (fun r => (r.1, { s with trade := r.2 }))

/-- The call `clear`. -/
def clear (s : Stock D) : Stock D := { s with trade := s.trade.clear }

/-- What every `Stock` object satisfies, its members being private: the three cache members
are as the constructors leave them, or as the last effective `hasChanged` left them. -/
def CacheOk (pow : D → D → D) (s : Stock D) : Prop :=
  (s.previous_exponent = 0 ∧ s.previous_price = 0 ∧ s.price_pow = 0) ∨
    s.price_pow = pow s.previous_price s.previous_exponent

/-- The cache of a stock is current for `exponent`. -/
def Current (pow : D → D → D) (exponent : D) (s : Stock D) : Prop :=
  s.previous_exponent = exponent ∧ s.previous_price = s.price ∧
    s.price_pow = pow s.price exponent

/-- The three cache members of a stock. -/
def cache (s : Stock D) : D × D × D := (s.previous_exponent, s.previous_price, s.price_pow)

end Stock

/-! ## GBCE.hpp -/

/-- The class `GlobalBeverageCorporationExchange`: the entries of the
`std::map<std::string, Stock>` it derives from, in iteration order (ascending key). -/
structure GlobalBeverageCorporationExchange (D : Type) where
  stocks : List (String × Stock D) := []
deriving DecidableEq

namespace GlobalBeverageCorporationExchange

variable {D : Type} [LinearOrderedField D]

/-- The inherited `size()`. -/
def size (g : GlobalBeverageCorporationExchange D) : Nat := g.stocks.length

/-- The inherited `emplace` on the entries: a new key is inserted at its place in the order,
an entry whose key is already present is left alone. -/
def emplace (symbol : String) (s : Stock D) : List (String × Stock D) → List (String × Stock D)
  | [] => [(symbol, s)]
  | x :: xs =>
    if symbol < x.1 then (symbol, s) :: x :: xs
    else if symbol = x.1 then x :: xs
    else x :: emplace symbol s xs

/-- The inherited `at` on the entries, read access: `none` stands for `std::out_of_range`. -/
def «at» (symbol : String) : List (String × Stock D) → Option (Stock D)
  | [] => none
  | x :: xs => if x.1 = symbol then some x.2 else «at» symbol xs

/-- Writing through the reference `at` returns: the stock under `symbol` becomes `s`. -/
def assign (symbol : String) (s : Stock D) : List (String × Stock D) → List (String × Stock D)
  | [] => []
  | x :: xs => if x.1 = symbol then (x.1, s) :: xs else x :: assign symbol s xs

/-- The keys of the entries are in strictly ascending order, as in every `std::map`. -/
def KeysSorted (l : List (String × Stock D)) : Prop :=
  (l.map Prod.fst).Pairwise (· < ·)

/-- The call `addStock`: the stock is constructed, then emplaced. -/
def addStock (g : GlobalBeverageCorporationExchange D) (symbol : String)
    (last_dividend par_value fixed_dividend : D) :
    Except Exception (GlobalBeverageCorporationExchange D) :=
  match Stock.ctor symbol last_dividend par_value fixed_dividend with
  | .error e => .error e
  | .ok s => .ok { stocks := emplace symbol s g.stocks }

/-- The call `setPrice`. -/
def setPrice (g : GlobalBeverageCorporationExchange D) (symbol : String) (price : D) :
    Except Exception (GlobalBeverageCorporationExchange D) :=
  match «at» symbol g.stocks with
  | none => .error .stock_non_found
  | some s =>
    match s.setPrice price with
    | .error e => .error e
    | .ok s' => .ok { stocks := assign symbol s' g.stocks }

/-- The call `getPrice`. -/
def getPrice (g : GlobalBeverageCorporationExchange D) (symbol : String) : Except Exception D :=
  match «at» symbol g.stocks with
  | none => .error .stock_non_found
  | some s => .ok s.getPrice

/-- The call `addTrade`. -/
def addTrade (g : GlobalBeverageCorporationExchange D) (right_now : timestamp) (symbol : String)
    (quantity : Nat) (indicator : Bool) :
    Except Exception (GlobalBeverageCorporationExchange D) :=
  match «at» symbol g.stocks with
  | none => .error .stock_non_found
  | some s =>
    match s.addTrade2 right_now quantity indicator with
    | .error e => .error e
    | .ok s' => .ok { stocks := assign symbol s' g.stocks }

/-- The call `stockPrice`. -/
def stockPrice (g : GlobalBeverageCorporationExchange D) (right_now : timestamp)
    (symbol : String) : Except Exception D :=
  match «at» symbol g.stocks with
  | none => .error .stock_non_found
  | some s => .ok (s.stockPrice right_now)

/-- The call `stockPriceAndClear`: `none` where the behaviour is undefined, else what is thrown
or the value returned with the exchange left. -/
def stockPriceAndClear (g : GlobalBeverageCorporationExchange D)
    (now_price now_clear : timestamp) (symbol : String) :
    Option (Except Exception (D × GlobalBeverageCorporationExchange D)) :=
  match «at» symbol g.stocks with
  | none => some (.error .stock_non_found)
  | some s =>
    (s.stockPriceAndClear now_price now_clear).map
      (fun r => .ok (r.1, { stocks := assign symbol r.2 g.stocks }))

/-- The call `dividendYield`; `negative_zero` is the sign bit of the price of the stock where
that price is zero. -/
def dividendYield (g : GlobalBeverageCorporationExchange D) (symbol : String)
    (negative_zero : Bool) : Except Exception (Quotient754 D) :=
  match «at» symbol g.stocks with
  | none => .error .stock_non_found
  | some s => s.dividendYield0 negative_zero

/-- The call `p_e_ratio`; `negative_zero` is the sign bit of the last dividend of the stock
where that dividend is zero. -/
def p_e_ratio (g : GlobalBeverageCorporationExchange D) (symbol : String)
    (negative_zero : Bool) : Except Exception (Quotient754 D) :=
  match «at» symbol g.stocks with
  | none => .error .stock_non_found
  | some s => s.p_e_ratio0 negative_zero

/-- The loop of `clearOldTrades`: `for(auto element : *this)` makes `element` a copy of the
entry, `clearOldTrades` runs on the copy's ledger and the copy is dropped at the end of the
round.  What is left to tell is whether every round had defined behaviour. -/
def clearOldTradesLoop (right_now : timestamp) : List (String × Stock D) → Option Unit
  | [] => some ()
  | element :: rest =>
    match element.2.clearOldTrades right_now with
    | none => none
    | some _ => clearOldTradesLoop right_now rest

/-- The call `clearOldTrades`: the exchange it leaves, or `none` where its behaviour is
undefined.  (The source reads the clock once per stock; one reading stands for all of them.) -/
def clearOldTrades (g : GlobalBeverageCorporationExchange D) (right_now : timestamp) :
    Option (GlobalBeverageCorporationExchange D) :=
  (clearOldTradesLoop right_now g.stocks).map (fun _ => g)

/-- The first loop of `allShareIndex`, `for(auto& element : *this)`: every stock is asked
`hasChanged(exponent)` in place, and `calculate` collects the answers. -/
def hasChangedLoop (pow : D → D → D) (exponent : D) :
    List (String × Stock D) → Bool → Bool × List (String × Stock D)
  | [], calculate => (calculate, [])
  | element :: rest, calculate =>
    let r := element.2.hasChanged pow exponent
    let out := hasChangedLoop pow exponent rest (r.1 || calculate)
    (out.1, (element.1, r.2) :: out.2)

/-- The second loop of `allShareIndex`: `product = element.second.getPricePow() * product`. -/
def productLoop (stocks : List (String × Stock D)) : D :=
  stocks.foldl (fun product element => element.2.getPricePow * product) 1

/-- What a call of `allShareIndex` leaves: the value returned, the function's static
`last_calculated_value` and the exchange. -/
structure IndexCall (D : Type) where
  value : D
  last_calculated_value : D
  gbce : GlobalBeverageCorporationExchange D

/-- The call `allShareIndex`.  Its static local `last_calculated_value` is one variable for
the whole process; it is passed in and handed back. -/
def allShareIndex (pow : D → D → D) (last_calculated_value : D)
    (g : GlobalBeverageCorporationExchange D) : IndexCall D :=
  let exponent : D := 1 / (g.size : D)
  let scan := hasChangedLoop pow exponent g.stocks false
  let last := if scan.1 then productLoop scan.2 else last_calculated_value
  { value := last, last_calculated_value := last, gbce := { stocks := scan.2 } }

/-- The geometric mean of the current prices: the product over all securities of
`price ^ (1 / n)`, `n` the number of securities. -/
def geometricMean (pow : D → D → D) (g : GlobalBeverageCorporationExchange D) : D :=
  (g.stocks.map (fun element => pow element.2.price (1 / (g.size : D)))).prod

end GlobalBeverageCorporationExchange

/-! ## A process that drives the exchange -/

/-- The calls that drive the share index of an exchange. -/
inductive Call (D : Type) where
  | addStock (symbol : String) (last_dividend par_value fixed_dividend : D)
  | setPrice (symbol : String) (price : D)
  | allShareIndex

/-- A process with one exchange: the static of `allShareIndex`, zero-initialised at program
start, and the exchange, empty when constructed. -/
structure Session (D : Type) where
  last_calculated_value : D
  gbce : GlobalBeverageCorporationExchange D

namespace Session

variable {D : Type} [LinearOrderedField D]

/-- The state at program start. -/
def init : Session D := { last_calculated_value := 0, gbce := {} }

/-- One call on the exchange; a call that throws leaves the state as it was. -/
def step (pow : D → D → D) (p : Session D) : Call D → Session D
  | .addStock symbol l_d p_v f_d =>
    match p.gbce.addStock symbol l_d p_v f_d with
    | .ok g => { p with gbce := g }
    | .error _ => p
  | .setPrice symbol price =>
    match p.gbce.setPrice symbol price with
    | .ok g => { p with gbce := g }
    | .error _ => p
  | .allShareIndex =>
    let r := p.gbce.allShareIndex pow p.last_calculated_value
    { last_calculated_value := r.last_calculated_value, gbce := r.gbce }

/-- A sequence of calls from a given state. -/
def run (pow : D → D → D) (p : Session D) (calls : List (Call D)) : Session D :=
  calls.foldl (step pow) p

end Session

/-- What a run of calls keeps true of a process with one exchange: every stock is a well-formed
object, and if the exchange is not empty and every stock was last asked with the exponent of
the present size, the static holds the product of the cached powers. -/
def Session.Inv {D : Type} [LinearOrderedField D] (pow : D → D → D) (p : Session D) : Prop :=
  (∀ x ∈ p.gbce.stocks, Stock.CacheOk pow x.2) ∧
    (p.gbce.stocks ≠ [] →
      (∀ x ∈ p.gbce.stocks, x.2.previous_exponent = 1 / (p.gbce.size : D)) →
      p.last_calculated_value = (p.gbce.stocks.map (fun x => x.2.price_pow)).prod)

/-- Which of the two exchanges of a process a call addresses. -/
inductive Target where
  | E1
  | E2
deriving DecidableEq, Repr

/-- A process with two exchanges: there is still one static of `allShareIndex`, because it is
a local static of the member function, not a member of the class. -/
structure Session2 (D : Type) where
  last_calculated_value : D
  E1 : GlobalBeverageCorporationExchange D
  E2 : GlobalBeverageCorporationExchange D

namespace Session2

variable {D : Type} [LinearOrderedField D]

/-- The state at program start. -/
def init : Session2 D := { last_calculated_value := 0, E1 := {}, E2 := {} }

/-- The exchange a target names. -/
def get (p : Session2 D) : Target → GlobalBeverageCorporationExchange D
  | .E1 => p.E1
  | .E2 => p.E2

/-- One call on one of the two exchanges, as `Session.step` does it on the only one. -/
def step (pow : D → D → D) (p : Session2 D) (c : Target × Call D) : Session2 D :=
  let r := Session.step pow { last_calculated_value := p.last_calculated_value,
                              gbce := p.get c.1 } c.2
  match c.1 with
  | .E1 => { last_calculated_value := r.last_calculated_value, E1 := r.gbce, E2 := p.E2 }
  | .E2 => { last_calculated_value := r.last_calculated_value, E1 := p.E1, E2 := r.gbce }

/-- A sequence of calls from a given state. -/
def run (pow : D → D → D) (p : Session2 D) (calls : List (Target × Call D)) : Session2 D :=
  calls.foldl (step pow) p

end Session2

/-! ## A caller that drives one stock -/

/-- The records of a ledger are in ascending order of timestamp, as in every `std::multimap`. -/
def Trade.Ordered {D : Type} (t : Trade D) : Prop :=
  t.records.Pairwise (fun a b => a.1 ≤ b.1)

/-- The calls of `Stock` that write to the object, each with its arguments and the clock
readings it takes. -/
inductive StockCall (D : Type) where
  | setPrice (p : D)
  | setLastDividend (d : D)
  | setFixedDividend (d : D)
  | setFixedDividendPercentage (d : D)
  | setBorder (new_border : Int)
  | addTrade (right_now : timestamp) (quantity : Nat) (indicator : Bool) (p : D)
  | addTrade2 (right_now : timestamp) (quantity : Nat) (indicator : Bool)
  | clearOldTrades (right_now : timestamp)
  | stockPriceAndClear (now_price now_clear : timestamp)
  | clear
  | hasChanged (exponent : D)

/-- One call on a stock: the stock it leaves, a call that throws leaving the stock as it was,
or `none` where the behaviour of the call is undefined. -/
def Stock.step {D : Type} [LinearOrderedField D] (pow : D → D → D) (s : Stock D) :
    StockCall D → Option (Stock D)
  | .setPrice p => some (leaves s (s.setPrice p))
  | .setLastDividend d => some (leaves s (s.setLastDividend d))
  | .setFixedDividend d => some (leaves s (s.setFixedDividend d))
  | .setFixedDividendPercentage d => some (leaves s (s.setFixedDividendPercentage d))
  | .setBorder new_border => some (s.setBorder new_border)
  | .addTrade right_now quantity indicator p =>
    some (leaves s (s.addTrade right_now quantity indicator p))
  | .addTrade2 right_now quantity indicator =>
    some (leaves s (s.addTrade2 right_now quantity indicator))
  | .clearOldTrades right_now => s.clearOldTrades right_now
  | .stockPriceAndClear now_price now_clear =>
    (s.stockPriceAndClear now_price now_clear).map Prod.snd
  | .clear => some s.clear
  | .hasChanged exponent => some (s.hasChanged pow exponent).2

/-- A sequence of calls on a stock, as far as its behaviour is defined. -/
def Stock.run {D : Type} [LinearOrderedField D] (pow : D → D → D) (s : Stock D) :
    List (StockCall D) → Option (Stock D)
  | [] => some s
  | c :: cs => (Stock.step pow s c).bind (fun s' => Stock.run pow s' cs)

/-! ## The scenario of `testMain001` -/

/-- The ledger of `testMain001` when its price is checked: the border is set to `_5sec`, the
trades `i = 1 .. 10` (quantity `i`, sell when `i` is even, price `10 * i`) are added `_500msec`
apart, the first at instant `0`. -/
def testMain001_ledger : Trade ℚ :=
  (List.range 10).foldl
    (fun (trade : Trade ℚ) (k : Nat) =>
      trade.addTrade (_500msec * (k : Int)) (k + 1) ((k + 1) % 2 == 0) (10 * ((k : ℚ) + 1)))
    ((({} : Trade ℚ).addTrade 0 10 true (1234 / 10)).clear.setBorder _5sec)

/-- The instant of the checks of `testMain001`: `_500msec` after the last insertion. -/
def testMain001_now : timestamp := _500msec * 10

/-! ## Results about the ledger -/

section Ledger

variable {D : Type} [LinearOrderedField D]

/-- The loop of `stockPrice` adds, to whatever it starts from, the notional and the quantity
of the entries that are younger than the window. -/
theorem foldl_stockPriceStep (border : Int) (now : timestamp) (l : List (trade_pair D))
    (acc : D × D) :
    l.foldl (Trade.stockPriceStep border now) acc =
      (acc.1 + ((l.filter (fun e => decide (now - e.1 < border))).map
          (fun e => e.2.price * (e.2.quantity : D))).sum,
       acc.2 + ((l.filter (fun e => decide (now - e.1 < border))).map
          (fun e => (e.2.quantity : D))).sum) := by
  induction l generalizing acc with
  | nil => simp
  | cons x xs ih =>
    rw [List.foldl_cons, ih]
    by_cases h : now - x.1 ≥ border
    · have h' : ¬ (now - x.1 < border) := not_lt.mpr h
      simp [Trade.stockPriceStep, h, h']
    · have h' : now - x.1 < border := not_le.mp h
      simp [Trade.stockPriceStep, h, h', add_assoc]

/-- The sums `stockPrice` tests and divides are the window sums of the specification. -/
theorem stockPrice_eq_sums (t : Trade D) (now : timestamp) :
    t.records.foldl (Trade.stockPriceStep t.border now) (0, 0) =
      (Trade.windowNotional t now, Trade.windowQuantity t now) := by
  rw [foldl_stockPriceStep]
  simp [Trade.windowNotional, Trade.windowQuantity, Trade.inWindow]

/-- C1: for every ledger, window and instant, `stockPrice` equals the reference definition of
the windowed price: with `Q` and `N` the summed quantity and notional over exactly the records
whose age is strictly less than the window, it is `0` on an empty ledger, `0` if `Q ≤ 0`, `0`
if `N ≤ 0` and `N / Q` otherwise; and a record whose age equals the window exactly (its
timestamp is `now - border`) is not among the records counted. -/
theorem stockPrice_eq_windowedPriceSpec (t : Trade D) (now : timestamp) (d : trade_data D) :
    Trade.stockPrice t now = Trade.windowedPriceSpec t now ∧
      Trade.inWindow { t with records := (now - t.border, d) :: t.records } now
        = Trade.inWindow t now := by
  constructor
  · unfold Trade.stockPrice Trade.windowedPriceSpec
    rw [stockPrice_eq_sums]
    cases h : t.records with
    | nil => simp
    | cons x xs => simp [ge_iff_le]
  · simp [Trade.inWindow]

/-- The loop of `clearOldTrades` has defined behaviour exactly when it meets no entry that is
too old. -/
theorem clearOldTradesLoop_eq (border : Int) (now : timestamp) (l : List (trade_pair D)) :
    Trade.clearOldTradesLoop border now l =
      if l.any (fun e => decide (now - e.1 ≥ border)) then none else some () := by
  induction l with
  | nil => simp [Trade.clearOldTradesLoop]
  | cons x xs ih =>
    by_cases h : now - x.1 ≥ border
    · simp [Trade.clearOldTradesLoop, h]
    · have hd : decide (now - x.1 ≥ border) = false := decide_eq_false h
      rw [List.any_cons, hd, Bool.false_or, ← ih]
      simp [Trade.clearOldTradesLoop, h]

/-- The call `clearOldTrades` has undefined behaviour as soon as one entry is too old, and
otherwise leaves the ledger as it is. -/
theorem clearOldTrades_eq (t : Trade D) (now : timestamp) :
    Trade.clearOldTrades t now =
      if t.records.any (fun e => decide (now - e.1 ≥ t.border)) then none else some t := by
  unfold Trade.clearOldTrades
  rw [clearOldTradesLoop_eq]
  cases h : t.records with
  | nil => simp
  | cons x xs =>
    by_cases hs : (x :: xs).any (fun e => decide (now - e.1 ≥ t.border)) = true
    · rw [if_pos hs, if_pos hs]; simp
    · rw [if_neg hs, if_neg hs]; simp

/-- C2: on the ledger with a window of `5000` to which the single trade `(1, buy, 10)` was
added at instant `0`, `clearOldTrades` at instant `5000` does not remove the record, whose age
has reached the window: it erases the entry its loop is standing on and then advances the
invalidated iterator, so its behaviour is undefined.  In general the call is defined only
where it has nothing to remove, and then leaves the ledger as it is (the empty ledger
included). -/
theorem clearOldTrades_stale_undefined :
    Trade.clearOldTrades ((({} : Trade ℚ).setBorder 5000).addTrade 0 1 false 10) 5000 = none ∧
      (∀ (t : Trade ℚ) (now : timestamp), Trade.clearOldTrades t now =
        if t.records.any (fun e => decide (now - e.1 ≥ t.border)) then none else some t) ∧
      ∀ (border : Int) (now : timestamp),
        Trade.clearOldTrades ({ records := [], border := border } : Trade ℚ) now
          = some { records := [], border := border } := by
  refine ⟨by decide, fun t now => clearOldTrades_eq t now, fun border now => ?_⟩
  simp [Trade.clearOldTrades]

/-- C6, as the source has it: on an empty ledger, a trade of price `price ≥ 0` added at instant
`t` and priced at an instant `t'` with `t' - t` less than the window gives exactly `price` when
its quantity is positive, and `0` when its quantity is `0`. -/
theorem stockPrice_addTrade_single (border : Int) (t t' : timestamp) (quantity : Nat)
    (indicator : Bool) (price : D) (hprice : 0 ≤ price) (hage : t' - t < border) :
    Trade.stockPrice
        (Trade.addTrade { records := [], border := border } t quantity indicator price) t'
      = if quantity = 0 then 0 else price := by
  have hnot : ¬ (border ≤ t' - t) := not_le.mpr hage
  rcases Nat.eq_zero_or_pos quantity with hq | hq
  · subst hq
    simp [Trade.stockPrice, Trade.addTrade, Trade.emplace_hint_end, Trade.stockPriceStep, hnot]
  · have hqD : (0 : D) < (quantity : D) := by exact_mod_cast hq
    have hq0 : quantity ≠ 0 := Nat.pos_iff_ne_zero.mp hq
    rcases hprice.eq_or_lt with hp | hp
    · subst hp
      simp [Trade.stockPrice, Trade.addTrade, Trade.emplace_hint_end, Trade.stockPriceStep,
        hnot, hq0]
    · have hpq : (0 : D) < price * (quantity : D) := mul_pos hp hqD
      simp [Trade.stockPrice, Trade.addTrade, Trade.emplace_hint_end, Trade.stockPriceStep,
        hnot, hq0, not_le.mpr hqD, not_le.mpr hpq, hqD.ne']

/-- The theorem `stockPrice_addTrade_single` at the trade of `testMain001`: quantity `10`, price
`123.4`, priced one millisecond later under the default window. -/
theorem stockPrice_addTrade_single_witness :
    Trade.stockPrice (Trade.addTrade ({ records := [], border := _15min } : Trade ℚ)
        0 10 true (1234 / 10)) 1 = if 10 = 0 then 0 else 1234 / 10 :=
  stockPrice_addTrade_single _15min 0 1 10 true (1234 / 10) (by norm_num) (by decide)

/-- C6 fails as stated: a trade of quantity `0` and price `5`, added to an empty ledger at
instant `0` and priced at instant `1` under the default window of fifteen minutes, is within
the claim's bounds, and `stockPrice` returns `0`, not the trade's price `5`. -/
theorem stockPrice_addTrade_zero_quantity :
    (0 : Nat) ≥ 0 ∧ (0 : ℚ) ≤ 5 ∧ (1 : Int) - 0 < _15min ∧
      Trade.stockPrice (Trade.addTrade ({} : Trade ℚ) 0 0 false 5) 1 = 0 ∧
      Trade.stockPrice (Trade.addTrade ({} : Trade ℚ) 0 0 false 5) 1 ≠ 5 := by
  refine ⟨by decide, by norm_num, by decide, ?_, ?_⟩ <;>
    norm_num [Trade.stockPrice, Trade.addTrade, Trade.emplace_hint_end, Trade.stockPriceStep,
      _15min]

/-- C7: on the ledger with a window of `5000` that holds the single trade `(2, sell, 20)` added
at instant `0`, the windowed price at instant `5000` is `0`, the record being too old, and
eviction at that instant, which would empty the ledger, yields no ledger on which the price
could be taken again: `clearOldTrades` erases the record under its loop's iterator and then
advances that iterator, and its behaviour is undefined.  Likewise on the ledger of the trades
`(1, buy, 10)`, `(2, sell, 20)` and `(3, buy, 30)` added at instants `0`, `1000` and `4000`:
the price at instant `5000` is `130 / 5 = 26` over the two records in the window, and the
eviction of the first record is undefined. -/
theorem stockPrice_after_clearOldTrades_undefined :
    Trade.stockPrice ((({} : Trade ℚ).setBorder 5000).addTrade 0 2 true 20) 5000 = 0 ∧
      Trade.clearOldTrades ((({} : Trade ℚ).setBorder 5000).addTrade 0 2 true 20) 5000
        = none ∧
      (¬ ∃ t' : Trade ℚ,
        Trade.clearOldTrades ((({} : Trade ℚ).setBorder 5000).addTrade 0 2 true 20) 5000
          = some t' ∧
        Trade.stockPrice t' 5000 =
          Trade.stockPrice ((({} : Trade ℚ).setBorder 5000).addTrade 0 2 true 20) 5000) ∧
      Trade.stockPrice
        ((((({} : Trade ℚ).setBorder 5000).addTrade 0 1 false 10).addTrade 1000 2 true 20).addTrade
          4000 3 false 30) 5000 = 26 ∧
      Trade.clearOldTrades
        ((((({} : Trade ℚ).setBorder 5000).addTrade 0 1 false 10).addTrade 1000 2 true 20).addTrade
          4000 3 false 30) 5000 = none ∧
      ¬ ∃ t' : Trade ℚ,
        Trade.clearOldTrades
          ((((({} : Trade ℚ).setBorder 5000).addTrade 0 1 false 10).addTrade 1000 2
            true 20).addTrade 4000 3 false 30) 5000 = some t' ∧
        Trade.stockPrice t' 5000 = Trade.stockPrice
          ((((({} : Trade ℚ).setBorder 5000).addTrade 0 1 false 10).addTrade 1000 2
            true 20).addTrade 4000 3 false 30) 5000 := by
  have h1 : Trade.clearOldTrades ((({} : Trade ℚ).setBorder 5000).addTrade 0 2 true 20) 5000
      = none := by decide
  have h3 : Trade.clearOldTrades
      ((((({} : Trade ℚ).setBorder 5000).addTrade 0 1 false 10).addTrade 1000 2 true 20).addTrade
        4000 3 false 30) 5000 = none := by decide
  refine ⟨?_, h1, ?_, ?_, h3, ?_⟩
  · norm_num [Trade.stockPrice, Trade.stockPriceStep, Trade.addTrade, Trade.setBorder,
      Trade.emplace_hint_end]
  · rintro ⟨t', h, -⟩
    rw [h1] at h
    cases h
  · norm_num [Trade.stockPrice, Trade.stockPriceStep, Trade.addTrade, Trade.setBorder,
      Trade.emplace_hint_end]
  · rintro ⟨t', h, -⟩
    rw [h3] at h
    cases h

/-- C8: in the scenario of `testMain001` the ledger holds ten records, and at the instant of
the checks its windowed price is `3840 / 54`, within `[71.1111, 71.1112]`; `clearOldTrades` at
that instant does not leave nine records: the first trade's age has reached the window, and
erasing it under the loop's iterator leaves the behaviour undefined. -/
theorem testMain001_price_and_clear :
    Trade.size testMain001_ledger = 10 ∧
      Trade.stockPrice testMain001_ledger testMain001_now = 3840 / 54 ∧
      (711111 / 10000 : ℚ) ≤ Trade.stockPrice testMain001_ledger testMain001_now ∧
      Trade.stockPrice testMain001_ledger testMain001_now ≤ (711112 / 10000 : ℚ) ∧
      Trade.clearOldTrades testMain001_ledger testMain001_now = none := by
  have hprice : Trade.stockPrice testMain001_ledger testMain001_now = 3840 / 54 := by
    norm_num [testMain001_ledger, testMain001_now, Trade.stockPrice, Trade.stockPriceStep,
      Trade.addTrade, Trade.emplace_hint_end, Trade.clear, Trade.setBorder, _5sec, _500msec,
      List.range, List.range.loop]
  refine ⟨by decide, hprice, ?_, ?_, by decide⟩
  · rw [hprice]; norm_num
  · rw [hprice]; norm_num

end Ledger

/-! ## Results about the exchange -/

section Exchange

variable {D : Type} [LinearOrderedField D]

/-- The loop of the exchange's `clearOldTrades` leaves no trace but its definedness. -/
theorem clearOldTrades_none_or_same (g : GlobalBeverageCorporationExchange D)
    (now : timestamp) :
    GlobalBeverageCorporationExchange.clearOldTrades g now = none ∨
      GlobalBeverageCorporationExchange.clearOldTrades g now = some g := by
  unfold GlobalBeverageCorporationExchange.clearOldTrades
  cases GlobalBeverageCorporationExchange.clearOldTradesLoop now g.stocks with
  | none => left; rfl
  | some u => right; rfl

/-- C5: the exchange obtained by listing `TEA`, pricing it at `10` and adding the trade
`(1, buy)` at instant `0` holds that one record under the default window `_15min`; and the
exchange's `clearOldTrades` at instant `_15min` does not leave the exchange without that
record, whose age has reached the window.  The loop variable is a copy of the map entry, so
the call never changes a stored stock: whenever its behaviour is defined the exchange is
exactly as before; and here the eviction run on the copy is itself undefined, as in the
ledger's `clearOldTrades`. -/
theorem exchange_clearOldTrades_keeps_stale :
    ((({} : GlobalBeverageCorporationExchange ℚ).addStock "TEA" 0 100 0).bind
        (fun g => g.setPrice "TEA" 10)).bind (fun g => g.addTrade 0 "TEA" 1 false) =
      .ok { stocks := [("TEA", {
              symbol := "TEA", trade := { records := [(0, ⟨1, false, 10⟩)] },
              price := 10, last_dividend := 0, fixed_dividend := 0, par_value := 100,
              previous_exponent := 0, previous_price := 0, price_pow := 0 })] } ∧
      GlobalBeverageCorporationExchange.clearOldTrades
        ({ stocks := [("TEA", {
              symbol := "TEA", trade := { records := [(0, ⟨1, false, 10⟩)] },
              price := 10, last_dividend := 0, fixed_dividend := 0, par_value := 100,
              previous_exponent := 0, previous_price := 0, price_pow := 0 })] } :
          GlobalBeverageCorporationExchange ℚ) _15min = none ∧
      ∀ (g : GlobalBeverageCorporationExchange ℚ) (now : timestamp),
        GlobalBeverageCorporationExchange.clearOldTrades g now = none ∨
          GlobalBeverageCorporationExchange.clearOldTrades g now = some g := by
  refine ⟨rfl, by decide, fun g now => clearOldTrades_none_or_same g now⟩

/-! ### `hasChanged` -/

/-- The call `hasChanged` never touches the price. -/
theorem hasChanged_price (pow : D → D → D) (s : Stock D) (e : D) :
    (Stock.hasChanged pow s e).2.price = s.price := by
  simp only [Stock.hasChanged]
  split <;> rfl

/-- When `hasChanged` answers `false` the stock is left as it was, and it had been asked
before with this exponent at this price. -/
theorem hasChanged_false (pow : D → D → D) (s : Stock D) (e : D)
    (h : (Stock.hasChanged pow s e).1 = false) :
    (Stock.hasChanged pow s e).2 = s ∧ s.previous_exponent = e ∧ s.previous_price = s.price := by
  simp only [Stock.hasChanged] at h ⊢
  by_cases hc : (decide (e ≠ s.previous_exponent) || decide (s.price ≠ s.previous_price)) = true
  · rw [if_pos hc] at h
    simp only [hc] at h
    exact absurd h (by simp)
  · rw [if_neg hc]
    simp only [Bool.or_eq_true, decide_eq_true_eq, not_or, not_not] at hc
    exact ⟨rfl, hc.1.symm, hc.2.symm⟩

/-- After `hasChanged` with a non-zero exponent the cache of a well-formed stock is current,
whatever the answer was. -/
theorem hasChanged_current (pow : D → D → D) (s : Stock D) (e : D)
    (hok : Stock.CacheOk pow s) (he : e ≠ 0) :
    Stock.Current pow e (Stock.hasChanged pow s e).2 := by
  by_cases hc : (Stock.hasChanged pow s e).1 = false
  · obtain ⟨hs, hexp, hprice⟩ := hasChanged_false pow s e hc
    rw [hs]
    refine ⟨hexp, hprice, ?_⟩
    rcases hok with ⟨h0, -, -⟩ | hpow
    · exact absurd (hexp.symm.trans h0) he
    · rw [hpow, hexp, hprice]
  · simp only [Stock.hasChanged] at hc ⊢
    by_cases hd : (decide (e ≠ s.previous_exponent) || decide (s.price ≠ s.previous_price)) = true
    · rw [if_pos hd]
      exact ⟨rfl, rfl, rfl⟩
    · rw [if_neg hd] at hc
      simp only [Bool.not_eq_true] at hd
      exact absurd hd hc

/-- A stock whose cache is current is well formed. -/
theorem cacheOk_of_current (pow : D → D → D) (s : Stock D) (e : D)
    (h : Stock.Current pow e s) : Stock.CacheOk pow s := by
  obtain ⟨h1, h2, h3⟩ := h
  right
  rw [h3, h2, h1]

/-- The call `hasChanged` keeps a stock well formed, whatever the exponent. -/
theorem hasChanged_cacheOk (pow : D → D → D) (s : Stock D) (e : D)
    (hok : Stock.CacheOk pow s) : Stock.CacheOk pow (Stock.hasChanged pow s e).2 := by
  simp only [Stock.hasChanged]
  split
  · exact Or.inr rfl
  · exact hok

/-- The constructor yields a well-formed stock with a zeroed cache. -/
theorem ctor_ok (symbol : String) (l_d p_v f_d : D) (s : Stock D)
    (h : Stock.ctor symbol l_d p_v f_d = .ok s) :
    s.previous_exponent = 0 ∧ s.previous_price = 0 ∧ s.price_pow = 0 ∧ s.price = 0 := by
  unfold Stock.ctor at h
  split at h
  · cases h
  · split at h
    · cases h
    · cases h
      exact ⟨rfl, rfl, rfl, rfl⟩

/-- A successful `setPrice` changes the price and nothing else. -/
theorem setPrice_ok (s s' : Stock D) (p : D) (h : Stock.setPrice s p = .ok s') :
    s' = { s with price := p } ∧ 0 ≤ p := by
  unfold Stock.setPrice at h
  split at h
  · cases h
  · rename_i hp
    cases h
    exact ⟨rfl, not_lt.mp hp⟩

/-! ### The loops of `allShareIndex` -/

/-- The first loop leaves every stock as `hasChanged` leaves it. -/
theorem hasChangedLoop_snd (pow : D → D → D) (e : D) (l : List (String × Stock D)) (c : Bool) :
    (GlobalBeverageCorporationExchange.hasChangedLoop pow e l c).2 =
      l.map (fun x => (x.1, (Stock.hasChanged pow x.2 e).2)) := by
  induction l generalizing c with
  | nil => rfl
  | cons x xs ih => simp [GlobalBeverageCorporationExchange.hasChangedLoop, ih]

/-- The first loop answers whether any stock has changed. -/
theorem hasChangedLoop_fst (pow : D → D → D) (e : D) (l : List (String × Stock D)) (c : Bool) :
    (GlobalBeverageCorporationExchange.hasChangedLoop pow e l c).1 =
      (c || l.any (fun x => (Stock.hasChanged pow x.2 e).1)) := by
  induction l generalizing c with
  | nil => simp [GlobalBeverageCorporationExchange.hasChangedLoop]
  | cons x xs ih =>
    simp only [GlobalBeverageCorporationExchange.hasChangedLoop, ih, List.any_cons]
    cases c <;> cases (Stock.hasChanged pow x.2 e).1 <;> simp

/-- The second loop, started from any value. -/
theorem foldl_product (l : List (String × Stock D)) (a : D) :
    l.foldl (fun product element => element.2.getPricePow * product) a =
      a * (l.map (fun x => x.2.price_pow)).prod := by
  induction l generalizing a with
  | nil => simp
  | cons x xs ih =>
    rw [List.foldl_cons, ih]
    simp only [Stock.getPricePow, List.map_cons, List.prod_cons]
    ring

/-- The second loop computes the product of the cached powers. -/
theorem productLoop_eq (l : List (String × Stock D)) :
    GlobalBeverageCorporationExchange.productLoop l = (l.map (fun x => x.2.price_pow)).prod := by
  unfold GlobalBeverageCorporationExchange.productLoop
  rw [foldl_product, one_mul]

/-- With at least one security the exponent `1 / n` is not zero. -/
theorem exponent_ne_zero (n : Nat) (hn : 1 ≤ n) : (1 : D) / (n : D) ≠ 0 := by
  have h : (n : D) ≠ 0 := by exact_mod_cast (Nat.one_le_iff_ne_zero.mp hn)
  exact one_div_ne_zero h

/-- After the first loop every stock of a well-formed list is current. -/
theorem hasChangedLoop_current (pow : D → D → D) (e : D) (he : e ≠ 0)
    (l : List (String × Stock D)) (c : Bool) (hok : ∀ x ∈ l, Stock.CacheOk pow x.2) :
    ∀ x ∈ (GlobalBeverageCorporationExchange.hasChangedLoop pow e l c).2,
      Stock.Current pow e x.2 := by
  rw [hasChangedLoop_snd]
  intro x hx
  obtain ⟨y, hy, rfl⟩ := List.mem_map.mp hx
  exact hasChanged_current pow y.2 e (hok y hy) he

/-- The cached powers after the first loop are the powers of the current prices. -/
theorem map_price_pow_after (pow : D → D → D) (e : D) (he : e ≠ 0)
    (l : List (String × Stock D)) (hok : ∀ x ∈ l, Stock.CacheOk pow x.2) :
    (l.map (fun x => (x.1, (Stock.hasChanged pow x.2 e).2))).map (fun x => x.2.price_pow) =
      l.map (fun x => pow x.2.price e) := by
  rw [List.map_map]
  apply List.map_congr_left
  intro x hx
  have h := hasChanged_current pow x.2 e (hok x hx) he
  simp only [Function.comp]
  rw [h.2.2, hasChanged_price]

/-- When no stock has changed the first loop leaves the list as it was. -/
theorem map_hasChanged_of_none (pow : D → D → D) (e : D) (l : List (String × Stock D))
    (h : l.any (fun x => (Stock.hasChanged pow x.2 e).1) = false) :
    l.map (fun x => (x.1, (Stock.hasChanged pow x.2 e).2)) = l ∧
      ∀ x ∈ l, x.2.previous_exponent = e ∧ x.2.previous_price = x.2.price := by
  have hall : ∀ x ∈ l, (Stock.hasChanged pow x.2 e).1 = false := by
    intro x hx
    by_contra hne
    have ht : (Stock.hasChanged pow x.2 e).1 = true := by simpa using hne
    have : l.any (fun x => (Stock.hasChanged pow x.2 e).1) = true :=
      List.any_eq_true.mpr ⟨x, hx, ht⟩
    rw [h] at this
    cases this
  constructor
  · conv_rhs => rw [← List.map_id l]
    apply List.map_congr_left
    intro x hx
    rw [(hasChanged_false pow x.2 e (hall x hx)).1]
    rfl
  · intro x hx
    exact (hasChanged_false pow x.2 e (hall x hx)).2

/-- The value of `allShareIndex` on a non-empty exchange of well-formed stocks whose static is
in step with them: the geometric mean of the current prices. -/
theorem allShareIndex_value_of_inv (pow : D → D → D) (p : Session D)
    (hinv : Session.Inv pow p) (hn : 1 ≤ p.gbce.size) :
    (GlobalBeverageCorporationExchange.allShareIndex pow p.last_calculated_value p.gbce).value
      = GlobalBeverageCorporationExchange.geometricMean pow p.gbce := by
  have he := exponent_ne_zero (D := D) p.gbce.size hn
  have hne : p.gbce.stocks ≠ [] := by
    intro h0
    simp [GlobalBeverageCorporationExchange.size, h0] at hn
  unfold GlobalBeverageCorporationExchange.allShareIndex
    GlobalBeverageCorporationExchange.geometricMean
  simp only [hasChangedLoop_fst, hasChangedLoop_snd, Bool.false_or]
  by_cases hany : p.gbce.stocks.any
      (fun x => (Stock.hasChanged pow x.2 (1 / (p.gbce.size : D))).1) = true
  · rw [if_pos hany, productLoop_eq, map_price_pow_after pow _ he _ hinv.1]
  · have hany' : p.gbce.stocks.any
        (fun x => (Stock.hasChanged pow x.2 (1 / (p.gbce.size : D))).1) = false := by
      simpa using hany
    rw [if_neg hany]
    obtain ⟨-, hcur⟩ := map_hasChanged_of_none pow _ _ hany'
    rw [hinv.2 hne (fun x hx => (hcur x hx).1)]
    congr 1
    apply List.map_congr_left
    intro x hx
    rcases hinv.1 x hx with ⟨h0, -, -⟩ | hpow
    · exact absurd ((hcur x hx).1.symm.trans h0) he
    · rw [hpow, (hcur x hx).1, (hcur x hx).2]

/-! ### `emplace` and the assignment through `at` -/

/-- An entry of the map after `emplace` is the new one or an old one. -/
theorem emplace_mem (k : String) (s : Stock D) (l : List (String × Stock D))
    (y : String × Stock D) (hy : y ∈ GlobalBeverageCorporationExchange.emplace k s l) :
    y = (k, s) ∨ y ∈ l := by
  induction l with
  | nil =>
    simp only [GlobalBeverageCorporationExchange.emplace, List.mem_singleton] at hy
    exact Or.inl hy
  | cons x xs ih =>
    simp only [GlobalBeverageCorporationExchange.emplace] at hy
    split at hy
    · rcases List.mem_cons.mp hy with h | h
      · exact Or.inl h
      · exact Or.inr h
    · split at hy
      · exact Or.inr hy
      · rcases List.mem_cons.mp hy with h | h
        · exact Or.inr (h ▸ List.mem_cons_self _ _)
        · rcases ih h with h' | h'
          · exact Or.inl h'
          · exact Or.inr (List.mem_cons_of_mem _ h')

/-- The call `emplace` leaves the map alone or adds the new entry to it. -/
theorem emplace_same_or_new (k : String) (s : Stock D) (l : List (String × Stock D)) :
    GlobalBeverageCorporationExchange.emplace k s l = l ∨
      ((k, s) ∈ GlobalBeverageCorporationExchange.emplace k s l ∧
        (GlobalBeverageCorporationExchange.emplace k s l).length = l.length + 1) := by
  induction l with
  | nil => right; simp [GlobalBeverageCorporationExchange.emplace]
  | cons x xs ih =>
    simp only [GlobalBeverageCorporationExchange.emplace]
    split
    · right; simp
    · split
      · left; rfl
      · rcases ih with h | ⟨h1, h2⟩
        · left; rw [h]
        · right
          exact ⟨List.mem_cons_of_mem _ h1, by simp [h2]⟩

/-- Assigning through `at` a stock that agrees with the stored one under `f` leaves the
`f`-image of the map as it was. -/
theorem assign_map {β : Type} (f : Stock D → β) (k : String) (s s' : Stock D)
    (l : List (String × Stock D))
    (hat : GlobalBeverageCorporationExchange.«at» k l = some s) (hf : f s' = f s) :
    (GlobalBeverageCorporationExchange.assign k s' l).map (fun x => f x.2) =
      l.map (fun x => f x.2) := by
  induction l with
  | nil => rfl
  | cons x xs ih =>
    simp only [GlobalBeverageCorporationExchange.«at»] at hat
    simp only [GlobalBeverageCorporationExchange.assign]
    split at hat
    · rename_i hk
      cases hat
      rw [if_pos hk]
      simp [hf]
    · rename_i hk
      rw [if_neg hk]
      simp [ih hat]

/-- The assignment through `at` keeps the number of entries. -/
theorem assign_length (k : String) (s' : Stock D) (l : List (String × Stock D)) :
    (GlobalBeverageCorporationExchange.assign k s' l).length = l.length := by
  induction l with
  | nil => rfl
  | cons x xs ih =>
    simp only [GlobalBeverageCorporationExchange.assign]
    split <;> simp [ih]

/-- A property of the caches of all stocks can be read off the list of the caches. -/
theorem forall_cache_iff (P : D × D × D → Prop) (l : List (String × Stock D)) :
    (∀ x ∈ l, P x.2.cache) ↔ ∀ c ∈ l.map (fun x => x.2.cache), P c := by
  constructor
  · intro h c hc
    obtain ⟨x, hx, rfl⟩ := List.mem_map.mp hc
    exact h x hx
  · intro h x hx
    exact h _ (List.mem_map.mpr ⟨x, hx, rfl⟩)

/-! ### The invariant of a process -/

/-- The state at program start satisfies the invariant. -/
theorem inv_init (pow : D → D → D) : Session.Inv pow (Session.init : Session D) := by
  constructor
  · intro x hx
    simp [Session.init] at hx
  · intro h
    simp [Session.init] at h

/-- The call `addStock` keeps the invariant. -/
theorem inv_addStock (pow : D → D → D) (p : Session D) (hinv : Session.Inv pow p)
    (symbol : String) (l_d p_v f_d : D) (g : GlobalBeverageCorporationExchange D)
    (h : p.gbce.addStock symbol l_d p_v f_d = .ok g) :
    Session.Inv pow { p with gbce := g } := by
  unfold GlobalBeverageCorporationExchange.addStock at h
  split at h
  · cases h
  · rename_i s hs
    cases h
    obtain ⟨h1, h2, h3, -⟩ := ctor_ok symbol l_d p_v f_d s hs
    constructor
    · intro x hx
      rcases emplace_mem symbol s p.gbce.stocks x hx with rfl | hx'
      · exact Or.inl ⟨h1, h2, h3⟩
      · exact hinv.1 x hx'
    · intro hne hall
      rcases emplace_same_or_new symbol s p.gbce.stocks with hsame | ⟨hmem, hlen⟩
      · simp only [GlobalBeverageCorporationExchange.size, hsame] at hne hall ⊢
        exact hinv.2 hne hall
      · have h0 := hall (symbol, s) hmem
        simp only [GlobalBeverageCorporationExchange.size, hlen] at h0
        rw [h1] at h0
        exact absurd h0.symm (exponent_ne_zero (p.gbce.stocks.length + 1) (by omega))

/-- The call `setPrice` keeps the invariant. -/
theorem inv_setPrice (pow : D → D → D) (p : Session D) (hinv : Session.Inv pow p)
    (symbol : String) (price : D) (g : GlobalBeverageCorporationExchange D)
    (h : p.gbce.setPrice symbol price = .ok g) :
    Session.Inv pow { p with gbce := g } := by
  unfold GlobalBeverageCorporationExchange.setPrice at h
  split at h
  · cases h
  · rename_i s hat
    split at h
    · cases h
    · rename_i s' hs'
      cases h
      obtain ⟨rfl, -⟩ := setPrice_ok s s' price hs'
      have hmap := assign_map Stock.cache symbol s { s with price := price } p.gbce.stocks hat rfl
      have hlen := assign_length symbol { s with price := price } p.gbce.stocks
      obtain ⟨hok, hlast⟩ := hinv
      constructor
      · have := (forall_cache_iff
          (fun c => (c.1 = 0 ∧ c.2.1 = 0 ∧ c.2.2 = 0) ∨ c.2.2 = pow c.2.1 c.1) p.gbce.stocks).mp hok
        rw [← hmap] at this
        exact (forall_cache_iff _ _).mpr this
      · intro hne hall
        have hne' : p.gbce.stocks ≠ [] := by
          intro h0
          apply hne
          have : (GlobalBeverageCorporationExchange.assign symbol { s with price := price }
            p.gbce.stocks).length = 0 := by rw [hlen, h0]; rfl
          exact List.length_eq_zero.mp this
        simp only [GlobalBeverageCorporationExchange.size, hlen] at hall
        have hall' : ∀ x ∈ p.gbce.stocks,
            x.2.previous_exponent = 1 / (p.gbce.stocks.length : D) := by
          have := (forall_cache_iff (fun c => c.1 = 1 / (p.gbce.stocks.length : D)) _).mp hall
          rw [hmap] at this
          exact (forall_cache_iff _ _).mpr this
        have hprod : (GlobalBeverageCorporationExchange.assign symbol { s with price := price }
            p.gbce.stocks).map (fun x => x.2.price_pow) =
            p.gbce.stocks.map (fun x => x.2.price_pow) :=
          assign_map (fun t => t.price_pow) symbol s { s with price := price } p.gbce.stocks
            hat rfl
        show p.last_calculated_value = _
        rw [hprod]
        exact hlast hne' hall'

/-- The call `allShareIndex` keeps the invariant. -/
theorem inv_allShareIndex (pow : D → D → D) (p : Session D) (hinv : Session.Inv pow p) :
    Session.Inv pow
      { last_calculated_value := (p.gbce.allShareIndex pow p.last_calculated_value).last_calculated_value,
        gbce := (p.gbce.allShareIndex pow p.last_calculated_value).gbce } := by
  by_cases hempty : p.gbce.stocks = []
  · have : GlobalBeverageCorporationExchange.allShareIndex pow p.last_calculated_value p.gbce =
        { value := p.last_calculated_value, last_calculated_value := p.last_calculated_value,
          gbce := p.gbce } := by
      cases hp : p.gbce with
      | mk stocks =>
        rw [hp] at hempty
        simp only at hempty
        subst hempty
        simp [GlobalBeverageCorporationExchange.allShareIndex,
          GlobalBeverageCorporationExchange.hasChangedLoop]
    rw [this]
    exact hinv
  · have hn : 1 ≤ p.gbce.size := by
      unfold GlobalBeverageCorporationExchange.size
      exact List.length_pos.mpr hempty
    have he := exponent_ne_zero (D := D) p.gbce.size hn
    obtain ⟨hok, hlast⟩ := hinv
    simp only [GlobalBeverageCorporationExchange.allShareIndex, hasChangedLoop_fst,
      hasChangedLoop_snd, Bool.false_or]
    constructor
    · intro x hx
      obtain ⟨y, hy, rfl⟩ := List.mem_map.mp hx
      exact cacheOk_of_current pow _ _ (hasChanged_current pow y.2 _ (hok y hy) he)
    · intro _ hall
      by_cases hany : p.gbce.stocks.any
          (fun x => (Stock.hasChanged pow x.2 (1 / (p.gbce.size : D))).1) = true
      · simp only [hany, if_true]
        rw [productLoop_eq]
      · have hany' : p.gbce.stocks.any
            (fun x => (Stock.hasChanged pow x.2 (1 / (p.gbce.size : D))).1) = false := by
          simpa using hany
        obtain ⟨hsame, hcur⟩ := map_hasChanged_of_none pow _ _ hany'
        simp only [hany', Bool.false_eq_true, if_false]
        rw [hsame]
        exact hlast hempty (fun x hx => (hcur x hx).1)

/-- Every call keeps the invariant. -/
theorem inv_step (pow : D → D → D) (p : Session D) (hinv : Session.Inv pow p) (c : Call D) :
    Session.Inv pow (Session.step pow p c) := by
  cases c with
  | addStock symbol l_d p_v f_d =>
    simp only [Session.step]
    split
    · rename_i g hg
      exact inv_addStock pow p hinv symbol l_d p_v f_d g hg
    · exact hinv
  | setPrice symbol price =>
    simp only [Session.step]
    split
    · rename_i g hg
      exact inv_setPrice pow p hinv symbol price g hg
    · exact hinv
  | allShareIndex => exact inv_allShareIndex pow p hinv

/-- Every run keeps the invariant. -/
theorem inv_run (pow : D → D → D) (calls : List (Call D)) (p : Session D)
    (hinv : Session.Inv pow p) : Session.Inv pow (Session.run pow p calls) := by
  induction calls generalizing p with
  | nil => exact hinv
  | cons c cs ih => exact ih (Session.step pow p c) (inv_step pow p hinv c)

/-- C3: for every exchange that starts empty with a fresh index cache and is driven only by
`addStock`, `setPrice` and `allShareIndex` calls (failed calls included), whenever it holds at
least one security `allShareIndex` returns the geometric mean of the current prices, that is
the product over all securities of `price ^ (1 / n)`. -/
theorem allShareIndex_eq_geometricMean (pow : D → D → D) (calls : List (Call D))
    (hn : 1 ≤ (Session.run pow Session.init calls).gbce.size) :
    (GlobalBeverageCorporationExchange.allShareIndex pow
        (Session.run pow Session.init calls).last_calculated_value
        (Session.run pow Session.init calls).gbce).value
      = GlobalBeverageCorporationExchange.geometricMean pow
        (Session.run pow Session.init calls).gbce :=
  allShareIndex_value_of_inv pow _ (inv_run pow calls Session.init (inv_init pow)) hn

/-- C10: after a call of `allShareIndex` on an exchange of `n ≥ 1` well-formed stocks, whatever
the static held and whether or not the product was recomputed, every stock's cache is current:
its last-seen exponent is `1 / n`, its last-seen price is its price, its cached power is
`price ^ (1 / n)`; and the number of stocks is still `n`. -/
theorem allShareIndex_all_current (pow : D → D → D) (last : D)
    (g : GlobalBeverageCorporationExchange D)
    (hok : ∀ x ∈ g.stocks, Stock.CacheOk pow x.2) (hn : 1 ≤ g.size) :
    (GlobalBeverageCorporationExchange.allShareIndex pow last g).gbce.size = g.size ∧
      ∀ x ∈ (GlobalBeverageCorporationExchange.allShareIndex pow last g).gbce.stocks,
        x.2.previous_exponent = 1 / (g.size : D) ∧ x.2.previous_price = x.2.price ∧
          x.2.price_pow = pow x.2.price (1 / (g.size : D)) := by
  constructor
  · simp [GlobalBeverageCorporationExchange.allShareIndex, hasChangedLoop_snd,
      GlobalBeverageCorporationExchange.size]
  · intro x hx
    exact hasChangedLoop_current pow _ (exponent_ne_zero g.size hn) g.stocks false hok x hx

/-- The theorem `allShareIndex_eq_geometricMean` over the reals with the real power, on the run
that lists `TEA`, prices it at `10`, asks for the index and reprices it at `20`: the next
index is the geometric mean of the one price. -/
theorem allShareIndex_eq_geometricMean_witness :
    (GlobalBeverageCorporationExchange.allShareIndex (fun x y : ℝ => x ^ y)
        (Session.run (fun x y : ℝ => x ^ y) Session.init
          [.addStock "TEA" 0 100 0, .setPrice "TEA" 10, .allShareIndex,
            .setPrice "TEA" 20]).last_calculated_value
        (Session.run (fun x y : ℝ => x ^ y) Session.init
          [.addStock "TEA" 0 100 0, .setPrice "TEA" 10, .allShareIndex,
            .setPrice "TEA" 20]).gbce).value
      = GlobalBeverageCorporationExchange.geometricMean (fun x y : ℝ => x ^ y)
        (Session.run (fun x y : ℝ => x ^ y) Session.init
          [.addStock "TEA" 0 100 0, .setPrice "TEA" 10, .allShareIndex,
            .setPrice "TEA" 20]).gbce :=
  allShareIndex_eq_geometricMean (fun x y : ℝ => x ^ y)
    [.addStock "TEA" 0 100 0, .setPrice "TEA" 10, .allShareIndex, .setPrice "TEA" 20]
    (by
      have htea : "TEA".isEmpty = false := by decide
      norm_num [Session.run, Session.step, Session.init,
        GlobalBeverageCorporationExchange.addStock, Stock.ctor,
        GlobalBeverageCorporationExchange.emplace, GlobalBeverageCorporationExchange.setPrice,
        GlobalBeverageCorporationExchange.«at», GlobalBeverageCorporationExchange.assign,
        Stock.setPrice, GlobalBeverageCorporationExchange.allShareIndex,
        GlobalBeverageCorporationExchange.hasChangedLoop,
        GlobalBeverageCorporationExchange.size, Stock.hasChanged, htea])

/-- The theorem `allShareIndex_all_current` over the reals with the real power, on the exchange
that holds `TEA` freshly listed and priced at `10`. -/
theorem allShareIndex_all_current_witness :
    (GlobalBeverageCorporationExchange.allShareIndex (fun x y : ℝ => x ^ y) 0
        { stocks := [("TEA", {
            symbol := "TEA", price := 10, last_dividend := 0, fixed_dividend := 0,
            par_value := 100, previous_exponent := 0, previous_price := 0,
            price_pow := 0 })] }).gbce.size = 1 ∧
      ∀ x ∈ (GlobalBeverageCorporationExchange.allShareIndex (fun x y : ℝ => x ^ y) 0
        { stocks := [("TEA", {
            symbol := "TEA", price := 10, last_dividend := 0, fixed_dividend := 0,
            par_value := 100, previous_exponent := 0, previous_price := 0,
            price_pow := 0 })] }).gbce.stocks,
        x.2.previous_exponent = 1 / ((1 : Nat) : ℝ) ∧ x.2.previous_price = x.2.price ∧
          x.2.price_pow = x.2.price ^ (1 / ((1 : Nat) : ℝ)) :=
  allShareIndex_all_current (fun x y : ℝ => x ^ y) 0
    { stocks := [("TEA", {
        symbol := "TEA", price := 10, last_dividend := 0, fixed_dividend := 0,
        par_value := 100, previous_exponent := 0, previous_price := 0, price_pow := 0 })] }
    (by
      intro x hx
      rw [List.mem_singleton] at hx
      subst hx
      exact Or.inl ⟨rfl, rfl, rfl⟩)
    (by decide)

/-- C4, as the source has it: the cache of the index is the one static of `allShareIndex`,
shared by every exchange of the process.  On an exchange of `n ≥ 1` well-formed stocks the
call returns the geometric mean of that exchange's own current prices when at least one of
its stocks reports a change, and otherwise returns whatever the static holds, whichever
exchange stored it; the value returned is what it leaves in the static. -/
theorem allShareIndex_value_shared_static (pow : D → D → D) (last : D)
    (g : GlobalBeverageCorporationExchange D)
    (hok : ∀ x ∈ g.stocks, Stock.CacheOk pow x.2) (hn : 1 ≤ g.size) :
    (GlobalBeverageCorporationExchange.allShareIndex pow last g).value =
        (if g.stocks.any (fun x => (Stock.hasChanged pow x.2 (1 / (g.size : D))).1)
          then GlobalBeverageCorporationExchange.geometricMean pow g else last) ∧
      (GlobalBeverageCorporationExchange.allShareIndex pow last g).last_calculated_value =
        (GlobalBeverageCorporationExchange.allShareIndex pow last g).value := by
  refine ⟨?_, rfl⟩
  have he := exponent_ne_zero (D := D) g.size hn
  unfold GlobalBeverageCorporationExchange.allShareIndex
    GlobalBeverageCorporationExchange.geometricMean
  simp only [hasChangedLoop_fst, hasChangedLoop_snd, Bool.false_or]
  by_cases hany : g.stocks.any (fun x => (Stock.hasChanged pow x.2 (1 / (g.size : D))).1) = true
  · rw [if_pos hany, if_pos hany, productLoop_eq, map_price_pow_after pow _ he _ hok]
  · rw [if_neg hany, if_neg hany]

/-- The theorem `allShareIndex_value_shared_static` over the reals with the real power, on the
exchange that holds `GIN` with a current cache for one security at price `9`, while the
static holds `5`. -/
theorem allShareIndex_value_shared_static_witness :
    (GlobalBeverageCorporationExchange.allShareIndex (fun x y : ℝ => x ^ y) 5
        { stocks := [("GIN", {
            symbol := "GIN", price := 9, last_dividend := 8, fixed_dividend := 2 / 100,
            par_value := 100, previous_exponent := 1, previous_price := 9,
            price_pow := 9 ^ (1 : ℝ) })] }).value = 5 := by
  have h := (allShareIndex_value_shared_static (fun x y : ℝ => x ^ y) 5
    { stocks := [("GIN", {
        symbol := "GIN", price := 9, last_dividend := 8, fixed_dividend := 2 / 100,
        par_value := 100, previous_exponent := 1, previous_price := 9,
        price_pow := 9 ^ (1 : ℝ) })] }
    (by
      intro x hx
      rw [List.mem_singleton] at hx
      subst hx
      exact Or.inr rfl)
    (by decide)).1
  rw [h]
  norm_num [Stock.hasChanged, GlobalBeverageCorporationExchange.size]

/-- C4 fails as stated: two exchanges list `ALE` and `TEA`, priced `4` and `9`, and the second
exchange's index is `9`.  Then the first exchange reprices `ALE` at `5` and asks for its
index.  The second exchange, whose one price is still `9` and whose geometric mean is still
`9`, now gets `5` from `allShareIndex`, the first exchange's index. -/
theorem allShareIndex_crosses_exchanges :
    (Session2.run (fun x y : ℝ => x ^ y) Session2.init
        [(.E1, .addStock "ALE" 23 60 0), (.E2, .addStock "TEA" 0 100 0),
          (.E1, .setPrice "ALE" 4), (.E2, .setPrice "TEA" 9),
          (.E2, .allShareIndex)]).last_calculated_value = 9 ∧
      GlobalBeverageCorporationExchange.geometricMean (fun x y : ℝ => x ^ y)
        (Session2.run (fun x y : ℝ => x ^ y) Session2.init
          [(.E1, .addStock "ALE" 23 60 0), (.E2, .addStock "TEA" 0 100 0),
            (.E1, .setPrice "ALE" 4), (.E2, .setPrice "TEA" 9), (.E2, .allShareIndex),
            (.E1, .setPrice "ALE" 5), (.E1, .allShareIndex)]).E2 = 9 ∧
      (GlobalBeverageCorporationExchange.allShareIndex (fun x y : ℝ => x ^ y)
        (Session2.run (fun x y : ℝ => x ^ y) Session2.init
          [(.E1, .addStock "ALE" 23 60 0), (.E2, .addStock "TEA" 0 100 0),
            (.E1, .setPrice "ALE" 4), (.E2, .setPrice "TEA" 9), (.E2, .allShareIndex),
            (.E1, .setPrice "ALE" 5), (.E1, .allShareIndex)]).last_calculated_value
        (Session2.run (fun x y : ℝ => x ^ y) Session2.init
          [(.E1, .addStock "ALE" 23 60 0), (.E2, .addStock "TEA" 0 100 0),
            (.E1, .setPrice "ALE" 4), (.E2, .setPrice "TEA" 9), (.E2, .allShareIndex),
            (.E1, .setPrice "ALE" 5), (.E1, .allShareIndex)]).E2).value = 5 := by
  have htea : "TEA".isEmpty = false := by decide
  have hale : "ALE".isEmpty = false := by decide
  refine ⟨?_, ?_, ?_⟩ <;>
    norm_num [Session2.run, Session2.step, Session2.init, Session2.get, Session.step,
      GlobalBeverageCorporationExchange.addStock, Stock.ctor,
      GlobalBeverageCorporationExchange.emplace, GlobalBeverageCorporationExchange.setPrice,
      GlobalBeverageCorporationExchange.«at», GlobalBeverageCorporationExchange.assign,
      Stock.setPrice, GlobalBeverageCorporationExchange.allShareIndex,
      GlobalBeverageCorporationExchange.hasChangedLoop,
      GlobalBeverageCorporationExchange.productLoop,
      GlobalBeverageCorporationExchange.geometricMean, Stock.getPricePow,
      GlobalBeverageCorporationExchange.size, Stock.hasChanged, htea, hale]

/-! ### The order of the keys -/

/-- The call `emplace` keeps the keys in order. -/
theorem emplace_sorted (k : String) (s : Stock D) (l : List (String × Stock D))
    (h : GlobalBeverageCorporationExchange.KeysSorted l) :
    GlobalBeverageCorporationExchange.KeysSorted
      (GlobalBeverageCorporationExchange.emplace k s l) := by
  unfold GlobalBeverageCorporationExchange.KeysSorted at h ⊢
  induction l with
  | nil => simp [GlobalBeverageCorporationExchange.emplace]
  | cons x xs ih =>
    rw [List.map_cons, List.pairwise_cons] at h
    obtain ⟨hx, hxs⟩ := h
    simp only [GlobalBeverageCorporationExchange.emplace]
    split
    · rename_i hlt
      rw [List.map_cons, List.pairwise_cons]
      refine ⟨?_, ?_⟩
      · intro a ha
        rw [List.map_cons, List.mem_cons] at ha
        rcases ha with rfl | ha
        · exact hlt
        · exact lt_trans hlt (hx a ha)
      · rw [List.map_cons, List.pairwise_cons]
        exact ⟨hx, hxs⟩
    · rename_i hnlt
      split
      · rw [List.map_cons, List.pairwise_cons]
        exact ⟨hx, hxs⟩
      · rename_i hne
        rw [List.map_cons, List.pairwise_cons]
        refine ⟨?_, ih hxs⟩
        intro a ha
        obtain ⟨y, hy, rfl⟩ := List.mem_map.mp ha
        rcases emplace_mem k s xs y hy with rfl | hy'
        · exact lt_of_le_of_ne (not_lt.mp hnlt) (Ne.symm hne)
        · exact hx _ (List.mem_map.mpr ⟨y, hy', rfl⟩)

/-- A key that is absent makes `emplace` add one entry. -/
theorem emplace_length_of_not_mem (k : String) (s : Stock D) (l : List (String × Stock D))
    (h : k ∉ l.map Prod.fst) :
    (GlobalBeverageCorporationExchange.emplace k s l).length = l.length + 1 := by
  induction l with
  | nil => rfl
  | cons x xs ih =>
    rw [List.map_cons, List.mem_cons, not_or] at h
    simp only [GlobalBeverageCorporationExchange.emplace]
    split
    · rfl
    · rw [if_neg h.1]
      simp [ih h.2]

/-- When `at` finds nothing, no entry has the key. -/
theorem at_none (k : String) (l : List (String × Stock D))
    (h : GlobalBeverageCorporationExchange.«at» k l = none) : ∀ y ∈ l, y.1 ≠ k := by
  induction l with
  | nil => intro y hy; cases hy
  | cons x xs ih =>
    simp only [GlobalBeverageCorporationExchange.«at»] at h
    split at h
    · cases h
    · rename_i hk
      intro y hy
      rcases List.mem_cons.mp hy with rfl | hy'
      · exact hk
      · exact ih h y hy'

/-- The assignment through `at` keeps the keys. -/
theorem assign_keys (k : String) (s' : Stock D) (l : List (String × Stock D)) :
    (GlobalBeverageCorporationExchange.assign k s' l).map Prod.fst = l.map Prod.fst := by
  induction l with
  | nil => rfl
  | cons x xs ih =>
    simp only [GlobalBeverageCorporationExchange.assign]
    split <;> simp [ih]

/-- In a map with ordered keys, an entry after the assignment through `at` is the assigned one
or an old one under another key. -/
theorem assign_mem (k : String) (s' : Stock D) (l : List (String × Stock D))
    (h : GlobalBeverageCorporationExchange.KeysSorted l) (y : String × Stock D)
    (hy : y ∈ GlobalBeverageCorporationExchange.assign k s' l) :
    y = (k, s') ∨ (y ∈ l ∧ y.1 ≠ k) := by
  unfold GlobalBeverageCorporationExchange.KeysSorted at h
  induction l with
  | nil => cases hy
  | cons x xs ih =>
    rw [List.map_cons, List.pairwise_cons] at h
    obtain ⟨hx, hxs⟩ := h
    simp only [GlobalBeverageCorporationExchange.assign] at hy
    split at hy
    · rename_i hk
      rcases List.mem_cons.mp hy with rfl | hy'
      · left; rw [hk]
      · right
        refine ⟨List.mem_cons_of_mem _ hy', ?_⟩
        intro hyk
        have := hx y.1 (List.mem_map.mpr ⟨y, hy', rfl⟩)
        rw [hk, hyk] at this
        exact lt_irrefl _ this
    · rename_i hk
      rcases List.mem_cons.mp hy with rfl | hy'
      · right; exact ⟨List.mem_cons_self _ _, hk⟩
      · rcases ih hxs hy' with h1 | ⟨h1, h2⟩
        · left; exact h1
        · right; exact ⟨List.mem_cons_of_mem _ h1, h2⟩

/-! ### Listing securities and pricing them all alike -/

/-- A run of `addStock` calls with valid arguments and fresh, distinct symbols adds one
security per call, under these symbols, and keeps the keys in order. -/
theorem run_addStock (pow : D → D → D) (stocks : List (String × D × D × D)) (p : Session D)
    (hsorted : GlobalBeverageCorporationExchange.KeysSorted p.gbce.stocks)
    (hvalid : ∀ a ∈ stocks, a.1.isEmpty = false ∧ 0 ≤ a.2.1 ∧ 0 ≤ a.2.2.1 ∧ 0 ≤ a.2.2.2)
    (hdistinct : (stocks.map Prod.fst).Nodup)
    (hfresh : ∀ a ∈ stocks, a.1 ∉ p.gbce.stocks.map Prod.fst) :
    GlobalBeverageCorporationExchange.KeysSorted
        (Session.run pow p (stocks.map
          (fun a => Call.addStock a.1 a.2.1 a.2.2.1 a.2.2.2))).gbce.stocks ∧
      (Session.run pow p (stocks.map
          (fun a => Call.addStock a.1 a.2.1 a.2.2.1 a.2.2.2))).gbce.stocks.length
        = p.gbce.stocks.length + stocks.length ∧
      ∀ y ∈ (Session.run pow p (stocks.map
          (fun a => Call.addStock a.1 a.2.1 a.2.2.1 a.2.2.2))).gbce.stocks,
        y ∈ p.gbce.stocks ∨ y.1 ∈ stocks.map Prod.fst := by
  induction stocks generalizing p with
  | nil =>
    refine ⟨hsorted, rfl, fun y hy => Or.inl hy⟩
  | cons a as ih =>
    obtain ⟨hne, h1, h2, h3⟩ := hvalid a (List.mem_cons_self _ _)
    obtain ⟨s0, hctor⟩ : ∃ s0, Stock.ctor a.1 a.2.1 a.2.2.1 a.2.2.2 = .ok s0 := by
      simp [Stock.ctor, hne, not_lt.mpr h1, not_lt.mpr h2, not_lt.mpr h3]
    have hstep : Session.step pow p (Call.addStock a.1 a.2.1 a.2.2.1 a.2.2.2) =
        { p with gbce := ⟨GlobalBeverageCorporationExchange.emplace a.1 s0 p.gbce.stocks⟩ } := by
      simp [Session.step, GlobalBeverageCorporationExchange.addStock, hctor]
    rw [List.map_cons, List.nodup_cons] at hdistinct
    have hafresh := hfresh a (List.mem_cons_self _ _)
    simp only [List.map_cons, Session.run, List.foldl_cons]
    rw [hstep]
    have hrec := ih { p with gbce := ⟨GlobalBeverageCorporationExchange.emplace a.1 s0 p.gbce.stocks⟩ }
      (emplace_sorted a.1 s0 p.gbce.stocks hsorted)
      (fun b hb => hvalid b (List.mem_cons_of_mem _ hb)) hdistinct.2
      (by
        intro b hb hmem
        obtain ⟨y, hy, hyb⟩ := List.mem_map.mp hmem
        rcases emplace_mem a.1 _ p.gbce.stocks y hy with rfl | hy'
        · exact hdistinct.1 (List.mem_map.mpr ⟨b, hb, hyb.symm⟩)
        · exact hfresh b (List.mem_cons_of_mem _ hb) (List.mem_map.mpr ⟨y, hy', hyb⟩))
    obtain ⟨r1, r2, r3⟩ := hrec
    refine ⟨r1, ?_, ?_⟩
    · simp only [Session.run] at r2
      rw [r2, emplace_length_of_not_mem a.1 _ p.gbce.stocks hafresh, List.length_cons]
      omega
    · intro y hy
      rcases r3 y hy with hy' | hy'
      · rcases emplace_mem a.1 _ p.gbce.stocks y hy' with rfl | hy''
        · right; exact List.mem_cons_self _ _
        · left; exact hy''
      · right; exact List.mem_cons_of_mem _ hy'

/-- A run of `setPrice` calls with one price `price ≥ 0` leaves the keys as they were and
every security under one of the symbols at that price. -/
theorem run_setPrice (pow : D → D → D) (price : D) (hprice : 0 ≤ price)
    (symbols done : List String) (p : Session D)
    (hsorted : GlobalBeverageCorporationExchange.KeysSorted p.gbce.stocks)
    (hdone : ∀ y ∈ p.gbce.stocks, y.1 ∈ done → y.2.price = price) :
    (Session.run pow p (symbols.map (fun k => Call.setPrice k price))).gbce.stocks.map Prod.fst
        = p.gbce.stocks.map Prod.fst ∧
      ∀ y ∈ (Session.run pow p (symbols.map (fun k => Call.setPrice k price))).gbce.stocks,
        y.1 ∈ done ∨ y.1 ∈ symbols → y.2.price = price := by
  induction symbols generalizing p done with
  | nil =>
    refine ⟨rfl, fun y hy h => ?_⟩
    rcases h with h | h
    · exact hdone y hy h
    · cases h
  | cons k ks ih =>
    simp only [List.map_cons, Session.run, List.foldl_cons]
    have hstep : (Session.step pow p (Call.setPrice k price)).gbce.stocks.map Prod.fst
          = p.gbce.stocks.map Prod.fst ∧
        ∀ y ∈ (Session.step pow p (Call.setPrice k price)).gbce.stocks,
          y.1 ∈ k :: done → y.2.price = price := by
      simp only [Session.step, GlobalBeverageCorporationExchange.setPrice]
      cases hat : GlobalBeverageCorporationExchange.«at» k p.gbce.stocks with
      | none =>
        refine ⟨rfl, fun y hy h => ?_⟩
        rcases List.mem_cons.mp h with h | h
        · exact absurd h (at_none k _ hat y hy)
        · exact hdone y hy h
      | some s0 =>
        have hset : Stock.setPrice s0 price = .ok { s0 with price := price } := by
          simp [Stock.setPrice, not_lt.mpr hprice]
        simp only [hset]
        refine ⟨assign_keys k _ _, fun y hy h => ?_⟩
        rcases assign_mem k _ _ hsorted y hy with rfl | ⟨hy', hne⟩
        · rfl
        · rcases List.mem_cons.mp h with h | h
          · exact absurd h hne
          · exact hdone y hy' h
    have hsorted' : GlobalBeverageCorporationExchange.KeysSorted
        (Session.step pow p (Call.setPrice k price)).gbce.stocks := by
      unfold GlobalBeverageCorporationExchange.KeysSorted at hsorted ⊢
      rw [hstep.1]
      exact hsorted
    obtain ⟨r1, r2⟩ := ih (k :: done) _ hsorted' hstep.2
    simp only [Session.run] at r1 r2
    refine ⟨r1.trans hstep.1, fun y hy h => r2 y hy ?_⟩
    rcases h with h | h
    · left; exact List.mem_cons_of_mem _ h
    · rcases List.mem_cons.mp h with h | h
      · left; rw [h]; exact List.mem_cons_self _ _
      · right; exact h

/-- C9: over the reals, with the real power, for every `n ≥ 1` and every price `p ≥ 0`: the
exchange built from the empty one by `n` `addStock` calls with valid arguments and distinct
symbols, followed by `setPrice(symbol, p)` on each of them, holds `n` securities and
`allShareIndex` returns `p` on it, since `(p ^ (1 / n)) ^ n = p`. -/
theorem allShareIndex_equal_prices (stocks : List (String × ℝ × ℝ × ℝ)) (p : ℝ)
    (hn : 1 ≤ stocks.length) (hp : 0 ≤ p)
    (hdistinct : (stocks.map Prod.fst).Nodup)
    (hvalid : ∀ a ∈ stocks, a.1.isEmpty = false ∧ 0 ≤ a.2.1 ∧ 0 ≤ a.2.2.1 ∧ 0 ≤ a.2.2.2) :
    (Session.run (fun x y : ℝ => x ^ y) Session.init
        (stocks.map (fun a => Call.addStock a.1 a.2.1 a.2.2.1 a.2.2.2) ++
          stocks.map (fun a => Call.setPrice a.1 p))).gbce.size = stocks.length ∧
      (GlobalBeverageCorporationExchange.allShareIndex (fun x y : ℝ => x ^ y)
        (Session.run (fun x y : ℝ => x ^ y) Session.init
          (stocks.map (fun a => Call.addStock a.1 a.2.1 a.2.2.1 a.2.2.2) ++
            stocks.map (fun a => Call.setPrice a.1 p))).last_calculated_value
        (Session.run (fun x y : ℝ => x ^ y) Session.init
          (stocks.map (fun a => Call.addStock a.1 a.2.1 a.2.2.1 a.2.2.2) ++
            stocks.map (fun a => Call.setPrice a.1 p))).gbce).value = p := by
  have hinv := inv_run (fun x y : ℝ => x ^ y)
    (stocks.map (fun a => Call.addStock a.1 a.2.1 a.2.2.1 a.2.2.2) ++
      stocks.map (fun a => Call.setPrice a.1 p)) Session.init (inv_init _)
  obtain ⟨a1, a2, a3⟩ := run_addStock (fun x y : ℝ => x ^ y) stocks Session.init
    (by simp [GlobalBeverageCorporationExchange.KeysSorted, Session.init]) hvalid hdistinct
    (by intro a _; simp [Session.init])
  have hsets := run_setPrice (fun x y : ℝ => x ^ y) p hp (stocks.map Prod.fst) []
    (Session.run (fun x y : ℝ => x ^ y) Session.init
      (stocks.map (fun a => Call.addStock a.1 a.2.1 a.2.2.1 a.2.2.2))) a1
    (by intro y _ h; cases h)
  rw [List.map_map] at hsets
  have hrun : Session.run (fun x y : ℝ => x ^ y) Session.init
      (stocks.map (fun a => Call.addStock a.1 a.2.1 a.2.2.1 a.2.2.2) ++
        stocks.map (fun a => Call.setPrice a.1 p)) =
      Session.run (fun x y : ℝ => x ^ y)
        (Session.run (fun x y : ℝ => x ^ y) Session.init
          (stocks.map (fun a => Call.addStock a.1 a.2.1 a.2.2.1 a.2.2.2)))
        (stocks.map ((fun k => Call.setPrice k p) ∘ Prod.fst)) := by
    simp only [Session.run, List.foldl_append]
    rfl
  rw [hrun] at hinv ⊢
  obtain ⟨s1, s2⟩ := hsets
  have hsize : (Session.run (fun x y : ℝ => x ^ y)
      (Session.run (fun x y : ℝ => x ^ y) Session.init
        (stocks.map (fun a => Call.addStock a.1 a.2.1 a.2.2.1 a.2.2.2)))
      (stocks.map ((fun k => Call.setPrice k p) ∘ Prod.fst))).gbce.size = stocks.length := by
    unfold GlobalBeverageCorporationExchange.size
    have := congrArg List.length s1
    rw [List.length_map, List.length_map] at this
    rw [this, a2]
    simp [Session.init]
  refine ⟨hsize, ?_⟩
  rw [allShareIndex_value_of_inv _ _ hinv (by rw [hsize]; exact hn)]
  unfold GlobalBeverageCorporationExchange.geometricMean
  rw [hsize, List.prod_eq_pow_card _ (p ^ (1 / (stocks.length : ℝ)))]
  · rw [List.length_map]
    have hlen : (Session.run (fun x y : ℝ => x ^ y)
        (Session.run (fun x y : ℝ => x ^ y) Session.init
          (stocks.map (fun a => Call.addStock a.1 a.2.1 a.2.2.1 a.2.2.2)))
        (stocks.map ((fun k => Call.setPrice k p) ∘ Prod.fst))).gbce.stocks.length
          = stocks.length := hsize
    rw [hlen, one_div]
    exact Real.rpow_inv_natCast_pow hp (by omega)
  · intro x hx
    obtain ⟨y, hy, rfl⟩ := List.mem_map.mp hx
    have hkey : y.1 ∈ stocks.map Prod.fst := by
      have hmem : y.1 ∈ (Session.run (fun x y : ℝ => x ^ y) Session.init
          (stocks.map (fun a => Call.addStock a.1 a.2.1 a.2.2.1 a.2.2.2))).gbce.stocks.map
            Prod.fst := by
        rw [← s1]
        exact List.mem_map.mpr ⟨y, hy, rfl⟩
      obtain ⟨z, hz, hzy⟩ := List.mem_map.mp hmem
      rcases a3 z hz with h0 | h0
      · simp [Session.init] at h0
      · rw [← hzy]; exact h0
    simp only
    rw [s2 y hy (Or.inr hkey)]

/-- The theorem `allShareIndex_equal_prices` at the five securities of `testMain003`, all
priced at `10`. -/
theorem allShareIndex_equal_prices_witness :
    (Session.run (fun x y : ℝ => x ^ y) Session.init
        ([("TEA", 0, 100, 0), ("POP", 8, 100, 0), ("ALE", 23, 60, 0),
            ("GIN", 8, 100, 2 / 100), ("JOE", 13, 250, 0)].map
            (fun a => Call.addStock a.1 a.2.1 a.2.2.1 a.2.2.2) ++
          [("TEA", 0, 100, 0), ("POP", 8, 100, 0), ("ALE", 23, 60, 0),
            ("GIN", 8, 100, 2 / 100), ("JOE", 13, 250, 0)].map
            (fun a => Call.setPrice a.1 10))).gbce.size = 5 ∧
      (GlobalBeverageCorporationExchange.allShareIndex (fun x y : ℝ => x ^ y)
        (Session.run (fun x y : ℝ => x ^ y) Session.init
          ([("TEA", 0, 100, 0), ("POP", 8, 100, 0), ("ALE", 23, 60, 0),
              ("GIN", 8, 100, 2 / 100), ("JOE", 13, 250, 0)].map
              (fun a => Call.addStock a.1 a.2.1 a.2.2.1 a.2.2.2) ++
            [("TEA", 0, 100, 0), ("POP", 8, 100, 0), ("ALE", 23, 60, 0),
              ("GIN", 8, 100, 2 / 100), ("JOE", 13, 250, 0)].map
              (fun a => Call.setPrice a.1 10))).last_calculated_value
        (Session.run (fun x y : ℝ => x ^ y) Session.init
          ([("TEA", 0, 100, 0), ("POP", 8, 100, 0), ("ALE", 23, 60, 0),
              ("GIN", 8, 100, 2 / 100), ("JOE", 13, 250, 0)].map
              (fun a => Call.addStock a.1 a.2.1 a.2.2.1 a.2.2.2) ++
            [("TEA", 0, 100, 0), ("POP", 8, 100, 0), ("ALE", 23, 60, 0),
              ("GIN", 8, 100, 2 / 100), ("JOE", 13, 250, 0)].map
              (fun a => Call.setPrice a.1 10))).gbce).value = 10 :=
  allShareIndex_equal_prices
    [("TEA", 0, 100, 0), ("POP", 8, 100, 0), ("ALE", 23, 60, 0), ("GIN", 8, 100, 2 / 100),
      ("JOE", 13, 250, 0)] 10 (by decide) (by norm_num) (by decide)
    (by
      intro a ha
      simp only [List.mem_cons, List.mem_singleton, List.not_mem_nil, or_false] at ha
      rcases ha with rfl | rfl | rfl | rfl | rfl <;>
        exact ⟨by decide, by norm_num, by norm_num, by norm_num⟩)

end Exchange

/-! ## Results about the stock -/

section Security

variable {D : Type} [LinearOrderedField D]

/-- The call `hasChanged`, with its test spelled out. -/
theorem hasChanged_eq (pow : D → D → D) (s : Stock D) (e : D) :
    Stock.hasChanged pow s e =
      if e ≠ s.previous_exponent ∨ s.price ≠ s.previous_price then
        (true, { s with previous_exponent := e, previous_price := s.price,
                        price_pow := pow s.price e })
      else (false, s) := by
  by_cases h : e ≠ s.previous_exponent ∨ s.price ≠ s.previous_price
  · have hb : (decide (e ≠ s.previous_exponent) || decide (s.price ≠ s.previous_price))
        = true := by
      simpa using h
    simp only [Stock.hasChanged, hb, if_true, h]
  · have hb : (decide (e ≠ s.previous_exponent) || decide (s.price ≠ s.previous_price))
        = false := by
      simpa using h
    simp only [Stock.hasChanged, hb, h, if_false, Bool.false_eq_true]

/-- C11: for every stock and exponent `e`, `hasChanged(e)` returns `true` exactly when `e`
differs from the last-seen exponent or the price differs from the last-seen price; it then
sets the last-seen exponent to `e`, the last-seen price to the price and the cached power to
`price ^ e`, and otherwise leaves the stock as it is; so a new pair of exponent and price is
answered `true`, and the same call repeated at once is answered `false`. -/
theorem hasChanged_spec (pow : D → D → D) (s : Stock D) (e : D) :
    ((Stock.hasChanged pow s e).1 = true ↔
        (e ≠ s.previous_exponent ∨ s.price ≠ s.previous_price)) ∧
      (Stock.hasChanged pow s e).2 =
        (if e ≠ s.previous_exponent ∨ s.price ≠ s.previous_price then
          { s with previous_exponent := e, previous_price := s.price,
                   price_pow := pow s.price e }
        else s) ∧
      (Stock.hasChanged pow (Stock.hasChanged pow s e).2 e).1 = false := by
  rw [hasChanged_eq pow (Stock.hasChanged pow s e).2 e, hasChanged_eq pow s e]
  by_cases h : e ≠ s.previous_exponent ∨ s.price ≠ s.previous_price
  · simp only [if_pos h, true_iff]
    refine ⟨h, trivial, ?_⟩
    simp
  · simp only [if_neg h]
    exact ⟨by simpa using h, trivial, trivial⟩

/-- C13: the constructor `Stock(symbol, last_dividend, par_value, fixed_dividend)` throws
`unexpected_empty_string` when the symbol is empty, whatever the numbers; otherwise it throws
`unexpected_negative_value` when one of the three numbers is negative; otherwise it yields the
stock with these four members stored, price `0`, an empty ledger with the default window and
the three cache members at `0`. -/
theorem ctor_spec (symbol : String) (l_d p_v f_d : D) :
    Stock.ctor symbol l_d p_v f_d =
      if symbol = "" then .error .unexpected_empty_string
      else if l_d < 0 ∨ p_v < 0 ∨ f_d < 0 then .error .unexpected_negative_value
      else .ok {
        symbol := symbol, trade := { records := [], border := _15min }, price := 0,
        last_dividend := l_d, fixed_dividend := f_d, par_value := p_v,
        previous_exponent := 0, previous_price := 0, price_pow := 0 } := by
  unfold Stock.ctor
  by_cases h : symbol = ""
  · have : symbol.isEmpty = true := (String.isEmpty_iff symbol).mpr h
    rw [if_pos this, if_pos h]
  · have : ¬ symbol.isEmpty = true := fun hc => h ((String.isEmpty_iff symbol).mp hc)
    simp only [this, h, if_false, gt_iff_lt]
    rfl

/-- C14: each of `setPrice`, `setLastDividend`, `setFixedDividend` and
`setFixedDividendPercentage` throws `unexpected_negative_value` exactly when its argument is
negative, and then leaves the stock as it is; otherwise it yields the stock with its own
member replaced (the price, the last dividend, the fixed dividend, the fixed dividend by the
hundredth of the argument) and every other member, the ledger and the cache as they were. -/
theorem setters_spec (s : Stock D) (x : D) :
    Stock.setPrice s x =
        (if x < 0 then .error .unexpected_negative_value else .ok { s with price := x }) ∧
      Stock.setLastDividend s x =
        (if x < 0 then .error .unexpected_negative_value
          else .ok { s with last_dividend := x }) ∧
      Stock.setFixedDividend s x =
        (if x < 0 then .error .unexpected_negative_value
          else .ok { s with fixed_dividend := x }) ∧
      Stock.setFixedDividendPercentage s x =
        (if x < 0 then .error .unexpected_negative_value
          else .ok { s with fixed_dividend := x / 100 }) ∧
      leaves s (Stock.setPrice s x) = (if x < 0 then s else { s with price := x }) ∧
      leaves s (Stock.setLastDividend s x) =
        (if x < 0 then s else { s with last_dividend := x }) ∧
      leaves s (Stock.setFixedDividend s x) =
        (if x < 0 then s else { s with fixed_dividend := x }) ∧
      leaves s (Stock.setFixedDividendPercentage s x) =
        (if x < 0 then s else { s with fixed_dividend := x / 100 }) ∧
      (Stock.setPrice s x = .error .unexpected_negative_value ↔ x < 0) ∧
      (Stock.setLastDividend s x = .error .unexpected_negative_value ↔ x < 0) ∧
      (Stock.setFixedDividend s x = .error .unexpected_negative_value ↔ x < 0) ∧
      (Stock.setFixedDividendPercentage s x = .error .unexpected_negative_value ↔ x < 0) := by
  by_cases h : x < 0
  · simp [Stock.setPrice, Stock.setLastDividend, Stock.setFixedDividend,
      Stock.setFixedDividendPercentage, leaves, h]
  · simp [Stock.setPrice, Stock.setLastDividend, Stock.setFixedDividend,
      Stock.setFixedDividendPercentage, leaves, h]

/-- The quotient of a double by a non-zero double is finite. -/
theorem divide_of_ne_zero (a b : D) (negative_zero : Bool) (hb : b ≠ 0) :
    divide a b negative_zero = .finite (a / b) := by
  simp [divide, hb]

/-- C15: `dividendYield(ticker_price)` throws `unexpected_zero_denominator` exactly when the
ticker price is negative; a ticker price of zero, of either sign bit, is not rejected, the
quotient by that zero is returned; for a positive ticker price it returns
`last_dividend / ticker_price` when the stock is common (`fixed_dividend ≤ 0`) and
`(fixed_dividend * par_value) / ticker_price` when it is preferred; `dividendYield()` is
`dividendYield(price)`.  The stocks of `testMain002`: `ALE (23, 60)` at price `10` yields
`23 / 10`, `GIN (8, 100, 0.02)` at price `10` yields `2 / 10`. -/
theorem dividendYield_spec (s : Stock D) (ticker_price : D) (negative_zero : Bool) :
    Stock.dividendYield s ticker_price negative_zero =
        (if ticker_price < 0 then .error .unexpected_zero_denominator
        else if ticker_price = 0 then
          .ok (divide (if s.fixed_dividend ≤ 0 then s.last_dividend
                        else s.fixed_dividend * s.par_value) 0 negative_zero)
        else .ok (.finite (if s.fixed_dividend ≤ 0 then s.last_dividend / ticker_price
                            else s.fixed_dividend * s.par_value / ticker_price))) ∧
      (Stock.dividendYield s ticker_price negative_zero = .error .unexpected_zero_denominator ↔
        ticker_price < 0) ∧
      Stock.dividendYield0 s negative_zero = Stock.dividendYield s s.price negative_zero ∧
      ((Stock.ctor "ALE" (23 : ℚ) 60 0).bind (fun ale => ale.setPrice 10)).bind
          (fun ale => Stock.dividendYield0 ale negative_zero) = .ok (.finite (23 / 10)) ∧
      ((Stock.ctor "GIN" (8 : ℚ) 100 (2 / 100)).bind (fun gin => gin.setPrice 10)).bind
          (fun gin => Stock.dividendYield0 gin negative_zero) = .ok (.finite (2 / 10)) := by
  refine ⟨?_, ?_, rfl, ?_, ?_⟩
  · unfold Stock.dividendYield Stock.isCommon
    by_cases hneg : ticker_price < 0
    · simp [hneg]
    · by_cases hzero : ticker_price = 0
      · subst hzero
        by_cases hc : s.fixed_dividend ≤ 0 <;> simp [hc]
      · by_cases hc : s.fixed_dividend ≤ 0 <;>
          simp [hneg, hzero, hc, divide_of_ne_zero]
  · unfold Stock.dividendYield
    by_cases hneg : ticker_price < 0
    · simp [hneg]
    · by_cases hc : s.isCommon = true <;> simp [hneg, hc]
  · have hale : "ALE".isEmpty = false := by decide
    norm_num [Stock.ctor, Stock.setPrice, Stock.dividendYield0, Stock.dividendYield,
      Stock.isCommon, divide, hale, Except.bind]
  · have hgin : "GIN".isEmpty = false := by decide
    norm_num [Stock.ctor, Stock.setPrice, Stock.dividendYield0, Stock.dividendYield,
      Stock.isCommon, divide, hgin, Except.bind]

/-- C16: `p_e_ratio(ticker_price)` throws `unexpected_zero_denominator` exactly when the last
dividend is negative; a last dividend of zero, of either sign bit, is not rejected, the
quotient by that zero is returned; for a positive last dividend it returns
`ticker_price / last_dividend`; `p_e_ratio()` is `p_e_ratio(price)`.  The stock of
`testMain002`: `JOE (13, 250)` at price `10` yields `10 / 13`, within `[0.769230, 0.769232]`. -/
theorem p_e_ratio_spec (s : Stock D) (ticker_price : D) (negative_zero : Bool) :
    Stock.p_e_ratio s ticker_price negative_zero =
        (if s.last_dividend < 0 then .error .unexpected_zero_denominator
        else if s.last_dividend = 0 then .ok (divide ticker_price 0 negative_zero)
        else .ok (.finite (ticker_price / s.last_dividend))) ∧
      (Stock.p_e_ratio s ticker_price negative_zero = .error .unexpected_zero_denominator ↔
        s.last_dividend < 0) ∧
      Stock.p_e_ratio0 s negative_zero = Stock.p_e_ratio s s.price negative_zero ∧
      ((Stock.ctor "JOE" (13 : ℚ) 250 0).bind (fun joe => joe.setPrice 10)).bind
          (fun joe => Stock.p_e_ratio0 joe negative_zero) = .ok (.finite (10 / 13)) ∧
      (769230 / 1000000 : ℚ) ≤ 10 / 13 ∧ (10 / 13 : ℚ) ≤ 769232 / 1000000 := by
  refine ⟨?_, ?_, rfl, ?_, by norm_num, by norm_num⟩
  · unfold Stock.p_e_ratio
    by_cases hneg : s.last_dividend < 0
    · simp [hneg]
    · by_cases hzero : s.last_dividend = 0
      · simp [hzero]
      · simp [hneg, hzero, divide_of_ne_zero]
  · unfold Stock.p_e_ratio
    by_cases hneg : s.last_dividend < 0 <;> simp [hneg]
  · have hjoe : "JOE".isEmpty = false := by decide
    norm_num [Stock.ctor, Stock.setPrice, Stock.p_e_ratio0, Stock.p_e_ratio, divide, hjoe,
      Except.bind]

/-- Insertion with the hint `end()` puts the new entry somewhere among the old ones, which
stay as they were and in their order. -/
theorem emplace_hint_end_split (e : trade_pair D) (l : List (trade_pair D)) :
    ∃ l1 l2, l = l1 ++ l2 ∧ Trade.emplace_hint_end e l = l1 ++ e :: l2 := by
  induction l with
  | nil => exact ⟨[], [], rfl, rfl⟩
  | cons x xs ih =>
    unfold Trade.emplace_hint_end
    split
    · exact ⟨[], x :: xs, rfl, rfl⟩
    · obtain ⟨l1, l2, h1, h2⟩ := ih
      exact ⟨x :: l1, l2, by rw [h1]; rfl, by rw [h2]; rfl⟩

/-- C17: `Stock::addTrade(quantity, indicator, p)` throws `unexpected_negative_value` exactly
when `p` is negative (the unsigned quantity never triggers it) and then leaves the stock as it
is; otherwise it adds exactly one record to the ledger, whose quantity and side are the
arguments and whose price is the stock's member `price`, not `p`: the old records stay as
they were, in their order, and so does every other member of the stock. -/
theorem stock_addTrade_spec (s : Stock D) (right_now : timestamp) (quantity : Nat)
    (indicator : Bool) (p : D) :
    Stock.addTrade s right_now quantity indicator p =
        (if p < 0 then .error .unexpected_negative_value
        else .ok { s with trade := s.trade.addTrade right_now quantity indicator s.price }) ∧
      leaves s (Stock.addTrade s right_now quantity indicator p) =
        (if p < 0 then s
        else { s with trade := s.trade.addTrade right_now quantity indicator s.price }) ∧
      (Stock.addTrade s right_now quantity indicator p = .error .unexpected_negative_value ↔
        p < 0) ∧
      (s.trade.addTrade right_now quantity indicator s.price).border = s.trade.border ∧
      ∃ l1 l2, s.trade.records = l1 ++ l2 ∧
        (s.trade.addTrade right_now quantity indicator s.price).records
          = l1 ++ (right_now, ⟨quantity, indicator, s.price⟩) :: l2 := by
  have hq : ¬ ((0 : D) > (quantity : D)) := not_lt.mpr (Nat.cast_nonneg quantity)
  refine ⟨?_, ?_, ?_, rfl, emplace_hint_end_split _ _⟩
  · by_cases hp : p < 0
    · simp [Stock.addTrade, hq, hp]
    · simp [Stock.addTrade, hq, hp]
  · by_cases hp : p < 0
    · simp [Stock.addTrade, hq, hp, leaves]
    · simp [Stock.addTrade, hq, hp, leaves]
  · by_cases hp : p < 0
    · simp [Stock.addTrade, hq, hp]
    · simp [Stock.addTrade, hq, hp]

end Security

/-! ## Results about the calls of the exchange addressed by symbol -/

section Accessors

variable {D : Type} [LinearOrderedField D]

/-- A key that no entry has is not found by `at`. -/
theorem at_of_not_mem (k : String) (l : List (String × Stock D))
    (h : k ∉ l.map Prod.fst) : GlobalBeverageCorporationExchange.«at» k l = none := by
  induction l with
  | nil => rfl
  | cons x xs ih =>
    rw [List.map_cons, List.mem_cons, not_or] at h
    simp only [GlobalBeverageCorporationExchange.«at»]
    rw [if_neg (fun hx => h.1 hx.symm)]
    exact ih h.2

/-- A key that some entry has is found by `at`. -/
theorem at_of_mem (k : String) (l : List (String × Stock D)) (h : k ∈ l.map Prod.fst) :
    ∃ s0, GlobalBeverageCorporationExchange.«at» k l = some s0 := by
  cases hat : GlobalBeverageCorporationExchange.«at» k l with
  | some s0 => exact ⟨s0, rfl⟩
  | none =>
    obtain ⟨y, hy, hyk⟩ := List.mem_map.mp h
    exact absurd hyk (at_none k l hat y hy)

/-- What `at` finds is the first entry under the key, and the assignment through `at`
replaces the stock of that entry and nothing else. -/
theorem at_split (k : String) (s0 : Stock D) (l : List (String × Stock D))
    (h : GlobalBeverageCorporationExchange.«at» k l = some s0) :
    ∃ l1 l2, l = l1 ++ (k, s0) :: l2 ∧ k ∉ l1.map Prod.fst ∧
      ∀ s' : Stock D,
        GlobalBeverageCorporationExchange.assign k s' l = l1 ++ (k, s') :: l2 := by
  induction l with
  | nil => cases h
  | cons x xs ih =>
    simp only [GlobalBeverageCorporationExchange.«at»] at h
    split at h
    · rename_i hk
      cases h
      refine ⟨[], xs, ?_, by simp, fun s' => ?_⟩
      · rw [← hk]; rfl
      · simp only [GlobalBeverageCorporationExchange.assign, if_pos hk, hk]
        rfl
    · rename_i hk
      obtain ⟨l1, l2, h1, h2, h3⟩ := ih h
      refine ⟨x :: l1, l2, by rw [h1]; rfl, ?_, fun s' => ?_⟩
      · rw [List.map_cons, List.mem_cons, not_or]
        exact ⟨fun hx => hk hx.symm, h2⟩
      · simp only [GlobalBeverageCorporationExchange.assign, if_neg hk, h3 s']
        rfl

/-- The first entry under a key is what `at` finds. -/
theorem at_append (k : String) (s0 : Stock D) (l1 l2 : List (String × Stock D))
    (h : k ∉ l1.map Prod.fst) :
    GlobalBeverageCorporationExchange.«at» k (l1 ++ (k, s0) :: l2) = some s0 := by
  induction l1 with
  | nil => simp [GlobalBeverageCorporationExchange.«at»]
  | cons x xs ih =>
    rw [List.map_cons, List.mem_cons, not_or] at h
    simp only [List.cons_append, GlobalBeverageCorporationExchange.«at»]
    rw [if_neg (fun hx => h.1 hx.symm)]
    exact ih h.2

/-- C12: for every exchange and every symbol that is not a key of it, each of `setPrice`,
`getPrice`, `addTrade`, `stockPrice`, `stockPriceAndClear`, `dividendYield` and `p_e_ratio`
throws `stock_non_found`, so returns no value, and the exchange is left as it was. -/
theorem accessors_not_found (g : GlobalBeverageCorporationExchange D) (symbol : String)
    (price : D) (right_now now_clear : timestamp) (quantity : Nat) (indicator : Bool)
    (negative_zero : Bool) (h : symbol ∉ g.stocks.map Prod.fst) :
    g.setPrice symbol price = .error .stock_non_found ∧
      leaves g (g.setPrice symbol price) = g ∧
      g.getPrice symbol = .error .stock_non_found ∧
      g.addTrade right_now symbol quantity indicator = .error .stock_non_found ∧
      leaves g (g.addTrade right_now symbol quantity indicator) = g ∧
      g.stockPrice right_now symbol = .error .stock_non_found ∧
      g.stockPriceAndClear right_now now_clear symbol = some (.error .stock_non_found) ∧
      (g.stockPriceAndClear right_now now_clear symbol).map
          (fun r => leaves g (r.map Prod.snd)) = some g ∧
      g.dividendYield symbol negative_zero = .error .stock_non_found ∧
      g.p_e_ratio symbol negative_zero = .error .stock_non_found := by
  have hat := at_of_not_mem symbol g.stocks h
  simp [GlobalBeverageCorporationExchange.setPrice, GlobalBeverageCorporationExchange.getPrice,
    GlobalBeverageCorporationExchange.addTrade, GlobalBeverageCorporationExchange.stockPrice,
    GlobalBeverageCorporationExchange.stockPriceAndClear,
    GlobalBeverageCorporationExchange.dividendYield,
    GlobalBeverageCorporationExchange.p_e_ratio, hat, leaves, Except.map]

/-- The theorem `accessors_not_found` on the exchange that holds `TEA` only, asked for
`POP`. -/
theorem accessors_not_found_witness :
    "POP" ∉ [("TEA", ({
          symbol := "TEA", price := 10, last_dividend := 0, fixed_dividend := 0,
          par_value := 100, previous_exponent := 0, previous_price := 0,
          price_pow := 0 } : Stock ℚ))].map Prod.fst ∧
      GlobalBeverageCorporationExchange.getPrice
        ({ stocks := [("TEA", {
            symbol := "TEA", price := 10, last_dividend := 0, fixed_dividend := 0,
            par_value := 100, previous_exponent := 0, previous_price := 0,
            price_pow := 0 })] } : GlobalBeverageCorporationExchange ℚ) "POP"
        = .error .stock_non_found :=
  ⟨by decide,
    (accessors_not_found
      ({ stocks := [("TEA", {
          symbol := "TEA", price := 10, last_dividend := 0, fixed_dividend := 0,
          par_value := 100, previous_exponent := 0, previous_price := 0,
          price_pow := 0 })] } : GlobalBeverageCorporationExchange ℚ) "POP"
      10 0 0 1 false false (by decide)).2.2.1⟩

/-- C18: for every exchange, every symbol under which it holds a stock and every price
`p ≥ 0`, `setPrice(symbol, p)` returns, and `getPrice(symbol)` is `p` afterwards; the entries
of the map are the same but for the one of the symbol, whose stock has the new price and its
ledger, dividend members and cache as before; the keys are the same. -/
theorem setPrice_frame (g : GlobalBeverageCorporationExchange D) (symbol : String)
    (s0 : Stock D) (p : D)
    (hat : GlobalBeverageCorporationExchange.«at» symbol g.stocks = some s0) (hp : 0 ≤ p) :
    ∃ l1 l2, g.stocks = l1 ++ (symbol, s0) :: l2 ∧ symbol ∉ l1.map Prod.fst ∧
      g.setPrice symbol p = .ok { stocks := l1 ++ (symbol, { s0 with price := p }) :: l2 } ∧
      GlobalBeverageCorporationExchange.getPrice
        { stocks := l1 ++ (symbol, { s0 with price := p }) :: l2 } symbol = .ok p ∧
      (l1 ++ (symbol, { s0 with price := p }) :: l2).map Prod.fst = g.stocks.map Prod.fst := by
  obtain ⟨l1, l2, h1, h2, h3⟩ := at_split symbol s0 g.stocks hat
  refine ⟨l1, l2, h1, h2, ?_, ?_, ?_⟩
  · simp [GlobalBeverageCorporationExchange.setPrice, hat, Stock.setPrice, not_lt.mpr hp, h3]
  · simp [GlobalBeverageCorporationExchange.getPrice, at_append symbol _ l1 l2 h2,
      Stock.getPrice]
  · rw [h1]
    simp

/-- The theorem `setPrice_frame` on the exchange that holds `ALE` and `TEA`, for `TEA` and the
price `12`. -/
theorem setPrice_frame_witness :
    ∃ l1 l2,
      [("ALE", ({
          symbol := "ALE", price := 4, last_dividend := 23, fixed_dividend := 0,
          par_value := 60, previous_exponent := 0, previous_price := 0,
          price_pow := 0 } : Stock ℚ)),
        ("TEA", {
          symbol := "TEA", trade := { records := [(0, ⟨1, false, 10⟩)] },
          price := 10, last_dividend := 0, fixed_dividend := 0,
          par_value := 100, previous_exponent := 0, previous_price := 0,
          price_pow := 0 })] = l1 ++ ("TEA", {
          symbol := "TEA", trade := { records := [(0, ⟨1, false, 10⟩)] },
          price := 10, last_dividend := 0, fixed_dividend := 0,
          par_value := 100, previous_exponent := 0, previous_price := 0,
          price_pow := 0 }) :: l2 ∧ "TEA" ∉ l1.map Prod.fst := by
  obtain ⟨l1, l2, h1, h2, -⟩ := setPrice_frame
    ({ stocks := [("ALE", {
          symbol := "ALE", price := 4, last_dividend := 23, fixed_dividend := 0,
          par_value := 60, previous_exponent := 0, previous_price := 0,
          price_pow := 0 }),
        ("TEA", {
          symbol := "TEA", trade := { records := [(0, ⟨1, false, 10⟩)] },
          price := 10, last_dividend := 0, fixed_dividend := 0,
          par_value := 100, previous_exponent := 0, previous_price := 0,
          price_pow := 0 })] } : GlobalBeverageCorporationExchange ℚ) "TEA"
    { symbol := "TEA", trade := { records := [(0, ⟨1, false, 10⟩)] },
      price := 10, last_dividend := 0, fixed_dividend := 0,
      par_value := 100, previous_exponent := 0, previous_price := 0,
      price_pow := 0 } 12 (by decide) (by norm_num)
  exact ⟨l1, l2, h1, h2⟩

/-- C19: `setPrice(symbol, p)` of the exchange with `p < 0` throws
`unexpected_negative_value` when the symbol is a key of the exchange and `stock_non_found`
when it is not, and in both cases leaves the exchange as it was. -/
theorem setPrice_negative (g : GlobalBeverageCorporationExchange D) (symbol : String) (p : D)
    (hp : p < 0) :
    g.setPrice symbol p =
        .error (if symbol ∈ g.stocks.map Prod.fst then .unexpected_negative_value
                else .stock_non_found) ∧
      leaves g (g.setPrice symbol p) = g := by
  by_cases hmem : symbol ∈ g.stocks.map Prod.fst
  · obtain ⟨s0, hat⟩ := at_of_mem symbol g.stocks hmem
    simp [GlobalBeverageCorporationExchange.setPrice, hat, Stock.setPrice, hp, hmem, leaves]
  · have hat := at_of_not_mem symbol g.stocks hmem
    simp [GlobalBeverageCorporationExchange.setPrice, hat, hmem, leaves]

/-- The theorem `setPrice_negative` on the exchange that holds `TEA`, for `TEA` and the price
`-1`. -/
theorem setPrice_negative_witness :
    (-1 : ℚ) < 0 ∧
      GlobalBeverageCorporationExchange.setPrice
        ({ stocks := [("TEA", {
            symbol := "TEA", price := 10, last_dividend := 0, fixed_dividend := 0,
            par_value := 100, previous_exponent := 0, previous_price := 0,
            price_pow := 0 })] } : GlobalBeverageCorporationExchange ℚ) "TEA" (-1)
        = .error (if "TEA" ∈ [("TEA", ({
            symbol := "TEA", price := 10, last_dividend := 0, fixed_dividend := 0,
            par_value := 100, previous_exponent := 0, previous_price := 0,
            price_pow := 0 } : Stock ℚ))].map Prod.fst then .unexpected_negative_value
          else .stock_non_found) :=
  ⟨by norm_num,
    (setPrice_negative
      ({ stocks := [("TEA", {
          symbol := "TEA", price := 10, last_dividend := 0, fixed_dividend := 0,
          par_value := 100, previous_exponent := 0, previous_price := 0,
          price_pow := 0 })] } : GlobalBeverageCorporationExchange ℚ) "TEA" (-1)
      (by norm_num)).1⟩

/-- In a map with ordered keys, `emplace` under a key that is present changes nothing. -/
theorem emplace_of_mem (k : String) (s : Stock D) (l : List (String × Stock D))
    (hsorted : GlobalBeverageCorporationExchange.KeysSorted l) (h : k ∈ l.map Prod.fst) :
    GlobalBeverageCorporationExchange.emplace k s l = l := by
  unfold GlobalBeverageCorporationExchange.KeysSorted at hsorted
  induction l with
  | nil => cases h
  | cons x xs ih =>
    rw [List.map_cons, List.pairwise_cons] at hsorted
    rw [List.map_cons, List.mem_cons] at h
    simp only [GlobalBeverageCorporationExchange.emplace]
    split
    · rename_i hlt
      rcases h with h | h
      · rw [h] at hlt
        exact absurd hlt (lt_irrefl _)
      · exact absurd hlt (lt_asymm (hsorted.1 k h))
    · split
      · rfl
      · rename_i hne
        rcases h with h | h
        · exact absurd h hne
        · rw [ih hsorted.2 h]

/-- Under a key that is absent `emplace` adds one entry among the old ones, which stay as
they were and in their order. -/
theorem emplace_of_not_mem (k : String) (s : Stock D) (l : List (String × Stock D))
    (h : k ∉ l.map Prod.fst) :
    ∃ l1 l2, l = l1 ++ l2 ∧
      GlobalBeverageCorporationExchange.emplace k s l = l1 ++ (k, s) :: l2 := by
  induction l with
  | nil => exact ⟨[], [], rfl, rfl⟩
  | cons x xs ih =>
    rw [List.map_cons, List.mem_cons, not_or] at h
    simp only [GlobalBeverageCorporationExchange.emplace]
    split
    · exact ⟨[], x :: xs, rfl, rfl⟩
    · rw [if_neg h.1]
      obtain ⟨l1, l2, h1, h2⟩ := ih h.2
      exact ⟨x :: l1, l2, by rw [h1]; rfl, by rw [h2]; rfl⟩

/-- C20: `addStock(symbol, ...)` with valid arguments never overwrites.  On an exchange that
holds the symbol it returns and the exchange is exactly as before: the stock under the
symbol keeps its price, dividend members, cache and trade records, and the number of stocks
is the same.  On an exchange that does not hold the symbol it adds exactly one entry, the
freshly constructed stock under that key, and every other entry is as before. -/
theorem addStock_never_overwrites (g : GlobalBeverageCorporationExchange D) (symbol : String)
    (l_d p_v f_d : D) (hsorted : GlobalBeverageCorporationExchange.KeysSorted g.stocks)
    (hsym : symbol ≠ "") (h1 : 0 ≤ l_d) (h2 : 0 ≤ p_v) (h3 : 0 ≤ f_d) :
    ∃ fresh, Stock.ctor symbol l_d p_v f_d = .ok fresh ∧
      (symbol ∈ g.stocks.map Prod.fst → g.addStock symbol l_d p_v f_d = .ok g) ∧
      (symbol ∉ g.stocks.map Prod.fst → ∃ l1 l2, g.stocks = l1 ++ l2 ∧
        g.addStock symbol l_d p_v f_d = .ok { stocks := l1 ++ (symbol, fresh) :: l2 }) := by
  have hne : ¬ symbol.isEmpty = true := fun hc => hsym ((String.isEmpty_iff symbol).mp hc)
  obtain ⟨fresh, hfresh⟩ : ∃ fresh, Stock.ctor symbol l_d p_v f_d = .ok fresh := by
    simp [Stock.ctor, hne, not_lt.mpr h1, not_lt.mpr h2, not_lt.mpr h3]
  refine ⟨fresh, hfresh, fun hmem => ?_, fun hmem => ?_⟩
  · simp [GlobalBeverageCorporationExchange.addStock, hfresh,
      emplace_of_mem symbol fresh g.stocks hsorted hmem]
  · obtain ⟨l1, l2, e1, e2⟩ := emplace_of_not_mem symbol fresh g.stocks hmem
    exact ⟨l1, l2, e1, by simp [GlobalBeverageCorporationExchange.addStock, hfresh, e2]⟩

/-- The theorem `addStock_never_overwrites` on the exchange that holds `TEA` at price `10` with
one trade, for a second `addStock("TEA", 5, 5)`. -/
theorem addStock_never_overwrites_witness :
    GlobalBeverageCorporationExchange.addStock
        ({ stocks := [("TEA", {
            symbol := "TEA", trade := { records := [(0, ⟨1, false, 10⟩)] },
            price := 10, last_dividend := 0, fixed_dividend := 0,
            par_value := 100, previous_exponent := 0, previous_price := 0,
            price_pow := 0 })] } : GlobalBeverageCorporationExchange ℚ) "TEA" 5 5 0
      = .ok { stocks := [("TEA", {
            symbol := "TEA", trade := { records := [(0, ⟨1, false, 10⟩)] },
            price := 10, last_dividend := 0, fixed_dividend := 0,
            par_value := 100, previous_exponent := 0, previous_price := 0,
            price_pow := 0 })] } := by
  obtain ⟨-, -, hmem, -⟩ := addStock_never_overwrites
    ({ stocks := [("TEA", {
        symbol := "TEA", trade := { records := [(0, ⟨1, false, 10⟩)] },
        price := 10, last_dividend := 0, fixed_dividend := 0,
        par_value := 100, previous_exponent := 0, previous_price := 0,
        price_pow := 0 })] } : GlobalBeverageCorporationExchange ℚ) "TEA" 5 5 0
    (by simp [GlobalBeverageCorporationExchange.KeysSorted]) (by decide)
    (by norm_num) (by norm_num) (by norm_num)
  exact hmem (by decide)

end Accessors

/-! ## Results about sequences of calls on a stock, and about insertion into the ledger -/

section Sequences

variable {D : Type} [LinearOrderedField D]

/-- No call on a stock makes a non-negative last dividend negative. -/
theorem step_last_dividend (pow : D → D → D) (s s' : Stock D) (c : StockCall D)
    (h : 0 ≤ s.last_dividend) (hstep : Stock.step pow s c = some s') :
    0 ≤ s'.last_dividend := by
  cases c with
  | setPrice p =>
    simp only [Stock.step, Option.some.injEq] at hstep
    subst hstep
    simp only [Stock.setPrice]
    split_ifs <;> simp [leaves, h]
  | setLastDividend d =>
    simp only [Stock.step, Option.some.injEq] at hstep
    subst hstep
    simp only [Stock.setLastDividend]
    split_ifs with hd
    · simp [leaves, h]
    · simpa [leaves] using hd
  | setFixedDividend d =>
    simp only [Stock.step, Option.some.injEq] at hstep
    subst hstep
    simp only [Stock.setFixedDividend]
    split_ifs <;> simp [leaves, h]
  | setFixedDividendPercentage d =>
    simp only [Stock.step, Option.some.injEq] at hstep
    subst hstep
    simp only [Stock.setFixedDividendPercentage]
    split_ifs <;> simp [leaves, h]
  | setBorder b =>
    simp only [Stock.step, Option.some.injEq] at hstep
    subst hstep
    exact h
  | addTrade now q side p =>
    simp only [Stock.step, Option.some.injEq] at hstep
    subst hstep
    simp only [Stock.addTrade]
    split_ifs <;> simp [leaves, h]
  | addTrade2 now q side =>
    simp only [Stock.step, Option.some.injEq] at hstep
    subst hstep
    simp only [Stock.addTrade2, Stock.addTrade]
    split_ifs <;> simp [leaves, h]
  | clearOldTrades now =>
    simp only [Stock.step, Stock.clearOldTrades, Option.map_eq_some'] at hstep
    obtain ⟨t, -, rfl⟩ := hstep
    exact h
  | stockPriceAndClear n1 n2 =>
    simp only [Stock.step, Stock.stockPriceAndClear, Option.map_eq_some'] at hstep
    obtain ⟨r, ⟨r0, -, rfl⟩, rfl⟩ := hstep
    exact h
  | clear =>
    simp only [Stock.step, Option.some.injEq] at hstep
    subst hstep
    exact h
  | hasChanged e =>
    simp only [Stock.step, Option.some.injEq] at hstep
    subst hstep
    simp only [Stock.hasChanged]
    split <;> exact h

/-- No sequence of calls on a stock makes a non-negative last dividend negative. -/
theorem run_last_dividend (pow : D → D → D) (calls : List (StockCall D)) (s s' : Stock D)
    (h : 0 ≤ s.last_dividend) (hrun : Stock.run pow s calls = some s') :
    0 ≤ s'.last_dividend := by
  induction calls generalizing s with
  | nil =>
    simp only [Stock.run, Option.some.injEq] at hrun
    subst hrun
    exact h
  | cons c cs ih =>
    simp only [Stock.run, Option.bind_eq_some] at hrun
    obtain ⟨s1, h1, h2⟩ := hrun
    exact ih s1 (step_last_dividend pow s s1 c h h1) h2

/-- C21: for every stock obtained from the validating constructor and every sequence of
setters, `addTrade`, eviction, `clear` and `hasChanged` calls on it, calls that throw included,
the stock the sequence leaves (wherever its behaviour is defined) has `last_dividend ≥ 0`, so
`p_e_ratio` does not throw on it: it returns the quotient, with and without argument. -/
theorem last_dividend_nonneg (pow : D → D → D) (symbol : String) (l_d p_v f_d : D)
    (s0 s : Stock D) (calls : List (StockCall D)) (ticker_price : D) (negative_zero : Bool)
    (hctor : Stock.ctor symbol l_d p_v f_d = .ok s0)
    (hrun : Stock.run pow s0 calls = some s) :
    0 ≤ s.last_dividend ∧
      Stock.p_e_ratio s ticker_price negative_zero =
        .ok (divide ticker_price s.last_dividend negative_zero) ∧
      Stock.p_e_ratio0 s negative_zero = .ok (divide s.price s.last_dividend negative_zero) := by
  have h0 : 0 ≤ s0.last_dividend := by
    unfold Stock.ctor at hctor
    split at hctor
    · cases hctor
    · split at hctor
      · cases hctor
      · rename_i hneg
        cases hctor
        simp only [not_or, not_lt] at hneg
        exact hneg.1
  have h := run_last_dividend pow calls s0 s h0 hrun
  refine ⟨h, ?_, ?_⟩
  · simp [Stock.p_e_ratio, not_lt.mpr h]
  · simp [Stock.p_e_ratio0, Stock.p_e_ratio, not_lt.mpr h]

/-- The theorem `last_dividend_nonneg` on `JOE (13, 250)`: priced at `10`, a last dividend of
`-1` refused and one of `3` accepted, a trade added and looked for at once by the eviction,
asked `hasChanged(1)` and cleared. -/
theorem last_dividend_nonneg_witness :
    ∃ s0 s : Stock ℚ, Stock.ctor "JOE" 13 250 0 = .ok s0 ∧
      Stock.run (fun x _ => x) s0
        [.setPrice 10, .setLastDividend (-1), .setLastDividend 3, .addTrade 0 1 false 10,
          .clearOldTrades 1, .hasChanged 1, .clear] = some s ∧
      s.last_dividend = 3 ∧ 0 ≤ s.last_dividend := by
  have hjoe : "JOE".isEmpty = false := by decide
  have hctor : Stock.ctor "JOE" (13 : ℚ) 250 0 = .ok
      { symbol := "JOE", price := 0, last_dividend := 13, fixed_dividend := 0,
        par_value := 250, previous_exponent := 0, previous_price := 0, price_pow := 0 } := by
    norm_num [Stock.ctor, hjoe]
  have hrun : Stock.run (fun x _ => x)
      ({ symbol := "JOE", price := 0, last_dividend := 13, fixed_dividend := 0,
         par_value := 250, previous_exponent := 0, previous_price := 0,
         price_pow := 0 } : Stock ℚ)
      [.setPrice 10, .setLastDividend (-1), .setLastDividend 3, .addTrade 0 1 false 10,
        .clearOldTrades 1, .hasChanged 1, .clear] = some
      { symbol := "JOE", price := 10, last_dividend := 3, fixed_dividend := 0,
        par_value := 250, previous_exponent := 1, previous_price := 10, price_pow := 10 } := by
    norm_num [Stock.run, Stock.step, leaves, Stock.setPrice, Stock.setLastDividend,
      Stock.addTrade, Trade.addTrade, Trade.emplace_hint_end, Stock.clearOldTrades,
      Trade.clearOldTrades, Trade.clearOldTradesLoop, Stock.hasChanged, Stock.clear,
      Trade.clear, _15min]
  exact ⟨_, _, hctor, hrun, rfl,
    (last_dividend_nonneg (fun x _ => x) "JOE" 13 250 0 _ _ _ 10 false hctor hrun).1⟩

/-- Insertion with the hint `end()` into an ordered sequence splits it at the first entry with
a greater key: what comes before has a key that is not greater, what comes after a key that
is greater. -/
theorem emplace_hint_end_ordered (e : trade_pair D) (l : List (trade_pair D))
    (hord : l.Pairwise (fun a b => a.1 ≤ b.1)) :
    ∃ l1 l2, l = l1 ++ l2 ∧ Trade.emplace_hint_end e l = l1 ++ e :: l2 ∧
      (∀ x ∈ l1, x.1 ≤ e.1) ∧ (∀ x ∈ l2, e.1 < x.1) := by
  induction l with
  | nil => exact ⟨[], [], rfl, rfl, by simp, by simp⟩
  | cons x xs ih =>
    rw [List.pairwise_cons] at hord
    unfold Trade.emplace_hint_end
    split
    · rename_i hlt
      refine ⟨[], x :: xs, rfl, rfl, by simp, ?_⟩
      intro y hy
      rcases List.mem_cons.mp hy with rfl | hy'
      · exact hlt
      · exact lt_of_lt_of_le hlt (hord.1 y hy')
    · rename_i hnlt
      obtain ⟨l1, l2, h1, h2, h3, h4⟩ := ih hord.2
      refine ⟨x :: l1, l2, by rw [h1]; rfl, by rw [h2]; rfl, ?_, h4⟩
      intro y hy
      rcases List.mem_cons.mp hy with rfl | hy'
      · exact not_lt.mp hnlt
      · exact h3 y hy'

/-- C22: `Trade::addTrade(quantity, indicator, price)` at instant `t` on an ordered ledger
inserts exactly the record `(t, quantity, indicator, price)` and removes nothing: the window
is as before, the number of records grows by one, the old records are all there, unchanged
and in their order, the records are still ordered by timestamp, and the new record comes
after every old record whose timestamp is not greater than `t`, ties included, and before
every old record with a greater timestamp. -/
theorem ledger_addTrade_spec (t : Trade D) (right_now : timestamp) (quantity : Nat)
    (indicator : Bool) (price : D) (hord : t.Ordered) :
    (t.addTrade right_now quantity indicator price).border = t.border ∧
      (t.addTrade right_now quantity indicator price).size = t.size + 1 ∧
      (t.addTrade right_now quantity indicator price).Ordered ∧
      ∃ l1 l2, t.records = l1 ++ l2 ∧
        (t.addTrade right_now quantity indicator price).records
          = l1 ++ (right_now, ⟨quantity, indicator, price⟩) :: l2 ∧
        (∀ x ∈ l1, x.1 ≤ right_now) ∧ (∀ x ∈ l2, right_now < x.1) := by
  obtain ⟨l1, l2, h1, h2, h3, h4⟩ :=
    emplace_hint_end_ordered (right_now, ⟨quantity, indicator, price⟩) t.records hord
  have hrec : (t.addTrade right_now quantity indicator price).records
      = l1 ++ (right_now, ⟨quantity, indicator, price⟩) :: l2 := h2
  refine ⟨rfl, ?_, ?_, l1, l2, h1, hrec, h3, h4⟩
  · unfold Trade.size
    rw [hrec, h1]
    simp only [List.length_append, List.length_cons]
    omega
  · unfold Trade.Ordered at hord ⊢
    rw [hrec]
    rw [h1, List.pairwise_append] at hord
    obtain ⟨p1, p2, p12⟩ := hord
    rw [List.pairwise_append]
    refine ⟨p1, ?_, ?_⟩
    · rw [List.pairwise_cons]
      exact ⟨fun y hy => le_of_lt (h4 y hy), p2⟩
    · intro a ha b hb
      rcases List.mem_cons.mp hb with rfl | hb'
      · exact h3 a ha
      · exact p12 a ha b hb'

/-- The theorem `ledger_addTrade_spec` on the ledger with records at the instants `0`, `500` and
`500`, for a third trade at instant `500`. -/
theorem ledger_addTrade_spec_witness :
    Trade.Ordered ({ records := [(0, ⟨1, false, 10⟩), (500, ⟨2, true, 20⟩),
        (500, ⟨3, false, 30⟩)] } : Trade ℚ) ∧
      (Trade.addTrade ({ records := [(0, ⟨1, false, 10⟩), (500, ⟨2, true, 20⟩),
        (500, ⟨3, false, 30⟩)] } : Trade ℚ) 500 4 true 40).size = 3 + 1 :=
  ⟨by simp [Trade.Ordered],
    (ledger_addTrade_spec ({ records := [(0, ⟨1, false, 10⟩), (500, ⟨2, true, 20⟩),
        (500, ⟨3, false, 30⟩)] } : Trade ℚ) 500 4 true 40 (by simp [Trade.Ordered])).2.1⟩

/-- C23: on the ledger with a window of `5000` to which the trades `(1, buy, 10)`,
`(3, sell, 30)` and `(1, buy, 50)` were added at the instants `0`, `1000` and `4000`, the
windowed price at instant `5000` is `35`, and `stockPriceAndClear` at that instant does not
return it: the call computes the price and then runs `clearOldTrades`, which meets the first
record, too old, erases it under its loop's iterator and leaves the behaviour undefined.  The
call is the price followed by the eviction, on every ledger. -/
theorem stockPriceAndClear_stale_undefined :
    Trade.stockPrice
        ((((({} : Trade ℚ).setBorder 5000).addTrade 0 1 false 10).addTrade 1000 3 true
          30).addTrade 4000 1 false 50) 5000 = 35 ∧
      Trade.stockPriceAndClear
        ((((({} : Trade ℚ).setBorder 5000).addTrade 0 1 false 10).addTrade 1000 3 true
          30).addTrade 4000 1 false 50) 5000 5000 = none ∧
      ∀ (t : Trade ℚ) (now_price now_clear : timestamp),
        Trade.stockPriceAndClear t now_price now_clear =
          (Trade.clearOldTrades t now_clear).map
            (fun t' => (Trade.stockPrice t now_price, t')) := by
  refine ⟨?_, ?_, fun t n1 n2 => rfl⟩
  · norm_num [Trade.stockPrice, Trade.stockPriceStep, Trade.addTrade, Trade.setBorder,
      Trade.emplace_hint_end]
  · have hnone : Trade.clearOldTrades
        ((((({} : Trade ℚ).setBorder 5000).addTrade 0 1 false 10).addTrade 1000 3 true
          30).addTrade 4000 1 false 50) 5000 = none := by decide
    simp only [Trade.stockPriceAndClear, hnone, Option.map_none']

/-- C24: for every stock exactly one of `isCommon()` and `isPreferred()` holds, `isCommon()`
being `fixed_dividend ≤ 0` and `isPreferred()` being `fixed_dividend > 0`; and a stock that
the validating constructor yields is common exactly when its fixed dividend, the one passed
to the constructor, is `0`. -/
theorem isCommon_isPreferred (s : Stock D) (symbol : String) (l_d p_v f_d : D) (s' : Stock D)
    (hctor : Stock.ctor symbol l_d p_v f_d = .ok s') :
    s.isCommon = !s.isPreferred ∧
      (s.isCommon = true ↔ s.fixed_dividend ≤ 0) ∧
      (s.isPreferred = true ↔ 0 < s.fixed_dividend) ∧
      s'.fixed_dividend = f_d ∧
      (s'.isCommon = true ↔ s'.fixed_dividend = 0) := by
  have hf : s'.fixed_dividend = f_d ∧ 0 ≤ f_d := by
    unfold Stock.ctor at hctor
    split at hctor
    · cases hctor
    · split at hctor
      · cases hctor
      · rename_i hneg
        cases hctor
        simp only [not_or, not_lt] at hneg
        exact ⟨rfl, hneg.2.2⟩
  refine ⟨?_, ?_, ?_, hf.1, ?_⟩
  · unfold Stock.isCommon Stock.isPreferred
    by_cases h : 0 < s.fixed_dividend
    · simp [h, not_le.mpr h]
    · simp [h, not_lt.mp h]
  · simp [Stock.isCommon]
  · simp [Stock.isPreferred]
  · rw [hf.1]
    simp only [Stock.isCommon, hf.1, decide_eq_true_eq, ge_iff_le]
    exact ⟨fun h => le_antisymm h hf.2, fun h => le_of_eq h⟩

/-- The theorem `isCommon_isPreferred` at the stocks of `testMain002`: `ALE (23, 60)`, which is
common, and `GIN (8, 100, 0.02)` as constructed. -/
theorem isCommon_isPreferred_witness :
    Stock.ctor "GIN" (8 : ℚ) 100 (2 / 100) = .ok
        { symbol := "GIN", price := 0, last_dividend := 8, fixed_dividend := 2 / 100,
          par_value := 100, previous_exponent := 0, previous_price := 0, price_pow := 0 } ∧
      Stock.isCommon ({
          symbol := "ALE", price := 0, last_dividend := 23, fixed_dividend := 0,
          par_value := 60, previous_exponent := 0, previous_price := 0,
          price_pow := 0 } : Stock ℚ)
        = !Stock.isPreferred ({
          symbol := "ALE", price := 0, last_dividend := 23, fixed_dividend := 0,
          par_value := 60, previous_exponent := 0, previous_price := 0,
          price_pow := 0 } : Stock ℚ) := by
  have hgin : "GIN".isEmpty = false := by decide
  have hctor : Stock.ctor "GIN" (8 : ℚ) 100 (2 / 100) = .ok
      { symbol := "GIN", price := 0, last_dividend := 8, fixed_dividend := 2 / 100,
        par_value := 100, previous_exponent := 0, previous_price := 0, price_pow := 0 } := by
    norm_num [Stock.ctor, hgin]
  exact ⟨hctor, (isCommon_isPreferred _ "GIN" 8 100 (2 / 100) _ hctor).1⟩

/-- C25, as the source has it: for a stock whose last dividend is zero and whose price is
positive, `p_e_ratio()` does not throw and returns an infinity, the quotient of a positive
double by a zero: the positive infinity where the last dividend is `+0.0`, the negative
infinity where it is `-0.0`; so does `p_e_ratio(ticker_price)` for every positive ticker
price. -/
theorem p_e_ratio_zero_dividend (s : Stock D) (ticker_price : D) (negative_zero : Bool)
    (h0 : s.last_dividend = 0) (hprice : 0 < s.price) (hticker : 0 < ticker_price) :
    Stock.p_e_ratio0 s negative_zero = .ok (.infinity negative_zero) ∧
      Stock.p_e_ratio s ticker_price negative_zero = .ok (.infinity negative_zero) := by
  constructor
  · simp [Stock.p_e_ratio0, Stock.p_e_ratio, divide, h0, hprice.ne', not_lt.mpr hprice.le]
  · simp [Stock.p_e_ratio, divide, h0, hticker.ne', not_lt.mpr hticker.le]

/-- The theorem `p_e_ratio_zero_dividend` at the stock of `testMain002`: `TEA (0.0, 100.0)`,
as the constructor and `setPrice(10)` leave it, its last dividend being `+0.0`: the positive
infinity. -/
theorem p_e_ratio_zero_dividend_witness :
    ((Stock.ctor "TEA" (0 : ℚ) 100 0).bind (fun tea => tea.setPrice 10)) = .ok
        { symbol := "TEA", price := 10, last_dividend := 0, fixed_dividend := 0,
          par_value := 100, previous_exponent := 0, previous_price := 0, price_pow := 0 } ∧
      Stock.p_e_ratio0 ({
          symbol := "TEA", price := 10, last_dividend := 0, fixed_dividend := 0,
          par_value := 100, previous_exponent := 0, previous_price := 0,
          price_pow := 0 } : Stock ℚ) false = .ok (.infinity false) := by
  have htea : "TEA".isEmpty = false := by decide
  refine ⟨?_, (p_e_ratio_zero_dividend _ 10 false rfl (by norm_num) (by norm_num)).1⟩
  norm_num [Stock.ctor, Stock.setPrice, htea, Except.bind]

/-- C25 fails as stated: the stock `Stock("TEA", -0.0, 100.0)` priced at `10`.  Neither the
constructor nor `p_e_ratio` rejects the negative zero (`0.0 > -0.0` is false), its last
dividend is zero and its price positive, and `p_e_ratio()` returns the negative infinity, not
the positive one. -/
theorem p_e_ratio_negative_zero_dividend :
    ((Stock.ctor "TEA" (0 : ℚ) 100 0).bind (fun tea => tea.setPrice 10)) = .ok
        { symbol := "TEA", price := 10, last_dividend := 0, fixed_dividend := 0,
          par_value := 100, previous_exponent := 0, previous_price := 0, price_pow := 0 } ∧
      Stock.p_e_ratio0 ({
          symbol := "TEA", price := 10, last_dividend := 0, fixed_dividend := 0,
          par_value := 100, previous_exponent := 0, previous_price := 0,
          price_pow := 0 } : Stock ℚ) true = .ok (.infinity true) ∧
      Stock.p_e_ratio0 ({
          symbol := "TEA", price := 10, last_dividend := 0, fixed_dividend := 0,
          par_value := 100, previous_exponent := 0, previous_price := 0,
          price_pow := 0 } : Stock ℚ) true ≠ .ok (.infinity false) := by
  have htea : "TEA".isEmpty = false := by decide
  refine ⟨?_, ?_, ?_⟩
  · norm_num [Stock.ctor, Stock.setPrice, htea, Except.bind]
  · norm_num [Stock.p_e_ratio0, Stock.p_e_ratio, divide]
  · norm_num [Stock.p_e_ratio0, Stock.p_e_ratio, divide]

set_option maxRecDepth 100000

/-- An entry of the map after the assignment through `at` holds the assigned stock or is an
old entry. -/
theorem assign_mem_or (k : String) (s' : Stock D) (l : List (String × Stock D))
    (y : String × Stock D) (hy : y ∈ GlobalBeverageCorporationExchange.assign k s' l) :
    y.2 = s' ∨ y ∈ l := by
  induction l with
  | nil => cases hy
  | cons x xs ih =>
    simp only [GlobalBeverageCorporationExchange.assign] at hy
    split at hy
    · rcases List.mem_cons.mp hy with rfl | hy'
      · exact Or.inl rfl
      · exact Or.inr (List.mem_cons_of_mem _ hy')
    · rcases List.mem_cons.mp hy with rfl | hy'
      · exact Or.inr (List.mem_cons_self _ _)
      · rcases ih hy' with h | h
        · exact Or.inl h
        · exact Or.inr (List.mem_cons_of_mem _ h)

/-- No call on the exchange makes a stored price negative. -/
theorem step_price_nonneg (pow : D → D → D) (p : Session D) (c : Call D)
    (h : ∀ x ∈ p.gbce.stocks, 0 ≤ x.2.price) :
    ∀ x ∈ (Session.step pow p c).gbce.stocks, 0 ≤ x.2.price := by
  cases c with
  | addStock symbol l_d p_v f_d =>
    simp only [Session.step, GlobalBeverageCorporationExchange.addStock]
    cases hctor : Stock.ctor symbol l_d p_v f_d with
    | error e => exact h
    | ok s =>
      intro x hx
      rcases emplace_mem symbol s p.gbce.stocks x hx with rfl | hx'
      · exact le_of_eq (ctor_ok symbol l_d p_v f_d s hctor).2.2.2.symm
      · exact h x hx'
  | setPrice symbol price =>
    simp only [Session.step]
    split
    · rename_i g hg
      unfold GlobalBeverageCorporationExchange.setPrice at hg
      split at hg
      · cases hg
      · rename_i s hat
        split at hg
        · cases hg
        · rename_i s' hset
          cases hg
          obtain ⟨rfl, hp⟩ := setPrice_ok s s' price hset
          intro x hx
          rcases assign_mem_or symbol _ p.gbce.stocks x hx with hx' | hx'
          · rw [hx']
            exact hp
          · exact h x hx'
    · exact h
  | allShareIndex =>
    simp only [Session.step, GlobalBeverageCorporationExchange.allShareIndex,
      hasChangedLoop_snd]
    intro x hx
    obtain ⟨y, hy, rfl⟩ := List.mem_map.mp hx
    simp only [hasChanged_price]
    exact h y hy

/-- No run of calls on the exchange makes a stored price negative. -/
theorem run_price_nonneg (pow : D → D → D) (calls : List (Call D)) (p : Session D)
    (h : ∀ x ∈ p.gbce.stocks, 0 ≤ x.2.price) :
    ∀ x ∈ (Session.run pow p calls).gbce.stocks, 0 ≤ x.2.price := by
  induction calls generalizing p with
  | nil => exact h
  | cons c cs ih => exact ih (Session.step pow p c) (step_price_nonneg pow p c h)

/-- What `at` finds is an entry of the map. -/
theorem at_mem (k : String) (s0 : Stock D) (l : List (String × Stock D))
    (h : GlobalBeverageCorporationExchange.«at» k l = some s0) : (k, s0) ∈ l := by
  obtain ⟨l1, l2, h1, -, -⟩ := at_split k s0 l h
  rw [h1]
  simp

/-- C29: for every exchange built from the empty one by `addStock` and `setPrice` calls
(`allShareIndex` calls allowed too) and every symbol under which it holds a stock,
`addTrade(symbol, quantity, indicator)` of the exchange does not throw, the stored price being
non-negative; it adds exactly one record, priced at the stock's stored price, to the ledger of
that stock, whose old records stay as they were and in their order; every other entry of the
map, and the price, dividend members and cache of that stock, are as before. -/
theorem exchange_addTrade_spec (pow : D → D → D) (calls : List (Call D)) (symbol : String)
    (s0 : Stock D) (right_now : timestamp) (quantity : Nat) (indicator : Bool)
    (hat : GlobalBeverageCorporationExchange.«at» symbol
      (Session.run pow Session.init calls).gbce.stocks = some s0) :
    0 ≤ s0.price ∧
      ∃ l1 l2, (Session.run pow Session.init calls).gbce.stocks = l1 ++ (symbol, s0) :: l2 ∧
        symbol ∉ l1.map Prod.fst ∧
        (Session.run pow Session.init calls).gbce.addTrade right_now symbol quantity indicator
          = .ok { stocks := l1 ++
              (symbol, { s0 with trade := s0.trade.addTrade right_now quantity indicator s0.price })
                :: l2 } ∧
        ∃ r1 r2, s0.trade.records = r1 ++ r2 ∧
          (s0.trade.addTrade right_now quantity indicator s0.price).records
            = r1 ++ (right_now, ⟨quantity, indicator, s0.price⟩) :: r2 := by
  have hprice : 0 ≤ s0.price :=
    run_price_nonneg pow calls Session.init (by intro x hx; simp [Session.init] at hx)
      (symbol, s0) (at_mem symbol s0 _ hat)
  obtain ⟨l1, l2, h1, h2, h3⟩ := at_split symbol s0 _ hat
  refine ⟨hprice, l1, l2, h1, h2, ?_, emplace_hint_end_split _ _⟩
  have hq : ¬ ((0 : D) > (quantity : D)) := not_lt.mpr (Nat.cast_nonneg quantity)
  simp [GlobalBeverageCorporationExchange.addTrade, hat, Stock.addTrade2, Stock.addTrade, hq,
    not_lt.mpr hprice, h3]

/-- The theorem `exchange_addTrade_spec` on the exchange built by `addStock("TEA", 0, 100)` and
`setPrice("TEA", 10)`, for `TEA`. -/
theorem exchange_addTrade_spec_witness :
    GlobalBeverageCorporationExchange.«at» "TEA"
        (Session.run (fun x _ => x) Session.init
          [.addStock "TEA" (0 : ℚ) 100 0, .setPrice "TEA" 10]).gbce.stocks
      = some { symbol := "TEA", price := 10, last_dividend := 0, fixed_dividend := 0,
               par_value := 100, previous_exponent := 0, previous_price := 0,
               price_pow := 0 } ∧
      (0 : ℚ) ≤ 10 := by
  have htea : "TEA".isEmpty = false := by decide
  have hat : GlobalBeverageCorporationExchange.«at» "TEA"
      (Session.run (fun x _ => x) Session.init
        [.addStock "TEA" (0 : ℚ) 100 0, .setPrice "TEA" 10]).gbce.stocks
      = some { symbol := "TEA", price := 10, last_dividend := 0, fixed_dividend := 0,
               par_value := 100, previous_exponent := 0, previous_price := 0,
               price_pow := 0 } := by
    norm_num [Session.run, Session.step, Session.init,
      GlobalBeverageCorporationExchange.addStock, Stock.ctor,
      GlobalBeverageCorporationExchange.emplace, GlobalBeverageCorporationExchange.setPrice,
      GlobalBeverageCorporationExchange.«at», GlobalBeverageCorporationExchange.assign,
      Stock.setPrice, htea]
  exact ⟨hat, (exchange_addTrade_spec (fun x _ => x)
    [.addStock "TEA" (0 : ℚ) 100 0, .setPrice "TEA" 10] "TEA" _ 0 1 false hat).1⟩

/-! ### Eviction twice -/

/-- C30: on the ledger with a window of `5000` to which the trades `(1, buy, 10)` and
`(2, sell, 20)` were added at the instants `0` and `3000`, `clearOldTrades` at instant `5000`
leaves no ledger on which a second `clearOldTrades`, at instant `9000` or again at `5000`,
could run, and neither does a single `clearOldTrades` at `9000`: each meets a record that is
too old, erases it under its loop's iterator and leaves the behaviour undefined.  On every
ledger the call is undefined or leaves the ledger as it is. -/
theorem clearOldTrades_twice_undefined :
    (5000 : Int) ≤ 9000 ∧
      (Trade.clearOldTrades
        (((({} : Trade ℚ).setBorder 5000).addTrade 0 1 false 10).addTrade 3000 2 true 20)
        5000).bind (fun t' => Trade.clearOldTrades t' 9000) = none ∧
      (Trade.clearOldTrades
        (((({} : Trade ℚ).setBorder 5000).addTrade 0 1 false 10).addTrade 3000 2 true 20)
        5000).bind (fun t' => Trade.clearOldTrades t' 5000) = none ∧
      Trade.clearOldTrades
        (((({} : Trade ℚ).setBorder 5000).addTrade 0 1 false 10).addTrade 3000 2 true 20)
        9000 = none ∧
      ∀ (t : Trade ℚ) (now : timestamp),
        Trade.clearOldTrades t now = none ∨ Trade.clearOldTrades t now = some t := by
  refine ⟨by decide, by decide, by decide, by decide, fun t now => ?_⟩
  rw [clearOldTrades_eq]
  split
  · exact Or.inl rfl
  · exact Or.inr rfl

end Sequences

end jpmorgan
